import Mathlib

/-!
Verification development for the source-dispatch and web-crawl subsystem of
onefilellm (src/onefilellm.py).

Strings are modelled as `List Char` (`Str`).  The URL machinery used by the
crawler (`urlparse`, `urlunparse`, `urljoin`, … from CPython 3.11's
`urllib.parse`) is embedded faithfully below, since the crawler's behaviour
is defined in terms of it.  The raise-only validation guards of
`urllib.parse.urlsplit` (the IPv6 bracket check and `_checknetloc`, which
never alter the returned components) are not modelled.

External effects (HTTP fetching, HTML parsing by BeautifulSoup, PyPDF2 page
objects, the filesystem) are modelled as oracles supplied to the functions
that use them, exactly at the call sites where the source delegates to those
libraries.
-/

namespace Onefilellm

abbrev Str := List Char

def str (s : String) : Str := s.data

/-! ## Python string primitives -/

/-- First index of a character, like Python `s.find(c)` (as an `Option`). -/
def pyFind : Str → Char → Option Nat
  | [], _ => none
  | a :: t, c => if a = c then some 0 else (pyFind t c).map (· + 1)

/-- `s.find(c, start)`. -/
def pyFindFrom (l : Str) (c : Char) (start : Nat) : Option Nat :=
  (pyFind (l.drop start) c).map (· + start)

/-- Last index of a character, like Python `s.rfind(c)` (as an `Option`). -/
def pyRFind (l : Str) (c : Char) : Option Nat :=
  match pyFind l.reverse c with
  | some i => some (l.length - 1 - i)
  | none => none

/-- Python `if c in s: a, b = s.split(c, 1)` (identity otherwise): splits at
the first occurrence of `c`, returning `(s, "")` when `c` is absent. -/
def pySplitOnce (l : Str) (c : Char) : Str × Str :=
  match pyFind l c with
  | some i => (l.take i, l.drop (i + 1))
  | none => (l, [])

/-- Python `s.split(c)` for a single-character separator. -/
def pySplitChar : Str → Char → List Str
  | [], _ => [[]]
  | a :: t, c =>
    if a = c then [] :: pySplitChar t c
    else
      match pySplitChar t c with
      | h :: r => (a :: h) :: r
      | [] => [[a]]

/-- Python `s.replace(old, new)` for a single-character `old`. -/
def pyReplaceChar (l : Str) (old : Char) (new : Str) : Str :=
  l.flatMap (fun c => if c = old then new else [c])

/-- ASCII whitespace recognised by Python `str.strip()`. -/
def pyIsSpace (c : Char) : Bool :=
  c ∈ [' ', '\t', '\n', '\r', Char.ofNat 11, Char.ofNat 12]

/-- Python `s.strip()` (ASCII whitespace). -/
def pyStrip (s : Str) : Str :=
  ((s.dropWhile pyIsSpace).reverse.dropWhile pyIsSpace).reverse

/-- Python `s.lower()` (ASCII case folding). -/
def pyLower (s : Str) : Str := s.map Char.toLower

/-- Python `sub in s` (substring containment). -/
def containsSub : Str → Str → Bool
  | _, [] => true
  | [], _ :: _ => false
  | a :: t, sub => (sub.isPrefixOf (a :: t)) || containsSub t sub

/-- Python `s.isdigit()` restricted to ASCII digits. -/
def pyIsDigitStr (s : Str) : Bool := s ≠ [] && s.all Char.isDigit

/-! ## urllib.parse model (CPython 3.11) -/

/-- Characters allowed in a URL scheme (`urllib.parse.scheme_chars`). -/
def schemeChars : Str :=
  str "abcdefghijklmnopqrstuvwxyzABCDEFGHIJKLMNOPQRSTUVWXYZ0123456789+-."

/-- `urllib.parse.uses_relative`. -/
def uses_relative : List Str :=
  [str "", str "ftp", str "http", str "gopher", str "nntp", str "imap",
   str "wais", str "file", str "https", str "shttp", str "mms",
   str "prospero", str "rtsp", str "rtsps", str "rtspu", str "sftp",
   str "svn", str "svn+ssh", str "ws", str "wss"]

/-- `urllib.parse.uses_netloc`. -/
def uses_netloc : List Str :=
  [str "", str "ftp", str "http", str "gopher", str "nntp", str "telnet",
   str "imap", str "wais", str "file", str "mms", str "https", str "shttp",
   str "snews", str "prospero", str "rtsp", str "rtsps", str "rtspu",
   str "rsync", str "svn", str "svn+ssh", str "sftp", str "nfs", str "git",
   str "git+ssh", str "ws", str "wss"]

/-- `urllib.parse.uses_params`. -/
def uses_params : List Str :=
  [str "", str "ftp", str "hdl", str "prospero", str "http", str "imap",
   str "https", str "shttp", str "rtsp", str "rtsps", str "rtspu",
   str "sip", str "sips", str "mms", str "sftp", str "tel"]

/-- A WHATWG C0-control character or space (`_WHATWG_C0_CONTROL_OR_SPACE`). -/
def isC0OrSpace (c : Char) : Bool := c.toNat ≤ 32

/-- `urllib.parse._UNSAFE_URL_BYTES_TO_REMOVE`. -/
def unsafeURLChars : List Char := ['\t', '\r', '\n']

/-- The cleaning `urlsplit` applies to its `url` argument: left-strip
C0-control/space characters, then remove all tab/CR/LF characters. -/
def cleanURL (url : Str) : Str :=
  (url.dropWhile isC0OrSpace).filter (fun c => ¬ c ∈ unsafeURLChars)

/-- The cleaning `urlsplit` applies to its default `scheme` argument:
strip C0-control/space on both ends, then remove tab/CR/LF. -/
def cleanScheme (s : Str) : Str :=
  (((s.dropWhile isC0OrSpace).reverse.dropWhile isC0OrSpace).reverse).filter
    (fun c => ¬ c ∈ unsafeURLChars)

/-- Delimiters ending the netloc (`urllib.parse._splitnetloc`). -/
def netlocDelim (c : Char) : Bool := c ∈ ['/', '?', '#']

/-- `urllib.parse._splitnetloc url 2`, applied to `url` with its leading
`"//"` already dropped: the netloc is the longest delimiter-free run. -/
def splitnetloc (rest : Str) : Str × Str :=
  (rest.takeWhile (fun c => ¬ netlocDelim c), rest.dropWhile (fun c => ¬ netlocDelim c))

structure SplitResult where
  scheme : Str
  netloc : Str
  path : Str
  query : Str
  fragment : Str
deriving DecidableEq, Repr

structure ParseResult where
  scheme : Str
  netloc : Str
  path : Str
  params : Str
  query : Str
  fragment : Str
deriving DecidableEq, Repr

/-- The netloc/fragment/query phase of `urlsplit`, applied to the part of
the URL that follows the scheme. -/
def splitAfterScheme (url : Str) : Str × Str × Str × Str :=
  let (netloc, url) :=
    if url.take 2 = ['/', '/'] then splitnetloc (url.drop 2) else ([], url)
  let (url, fragment) := pySplitOnce url '#'
  let (url, query) := pySplitOnce url '?'
  (netloc, url, query, fragment)

/-- `urllib.parse.urlsplit` (CPython 3.11), with default scheme `dscheme`.
The raise-only IPv6 bracket and `_checknetloc` validations are omitted. -/
def urlsplit (url0 : Str) (dscheme : Str) : SplitResult :=
  let url := cleanURL url0
  let ds := cleanScheme dscheme
  let (scheme, url) :=
    match pyFind url ':' with
    | some i =>
      if 0 < i ∧ (url.headD ' ').isAlpha ∧ (url.take i).all (fun c => c ∈ schemeChars)
      then ((url.take i).map Char.toLower, url.drop (i + 1))
      else (ds, url)
    | none => (ds, url)
  let (netloc, path, query, fragment) := splitAfterScheme url
  ⟨scheme, netloc, path, query, fragment⟩

/-- `urllib.parse._splitparams`. -/
def splitparams (url : Str) : Str × Str :=
  if '/' ∈ url then
    match pyRFind url '/' with
    | some r =>
      match pyFindFrom url ';' r with
      | some i => (url.take i, url.drop (i + 1))
      | none => (url, [])
    | none => (url, [])
  else
    match pyFind url ';' with
    | some i => (url.take i, url.drop (i + 1))
    | none => (url, [])

/-- `urllib.parse.urlparse` (CPython 3.11). -/
def urlparse (url : Str) (dscheme : Str) : ParseResult :=
  let s := urlsplit url dscheme
  let (path, params) :=
    if s.scheme ∈ uses_params ∧ ';' ∈ s.path then splitparams s.path
    else (s.path, [])
  ⟨s.scheme, s.netloc, path, params, s.query, s.fragment⟩

/-- `urllib.parse.urlunsplit` (CPython 3.11). -/
def urlunsplit (scheme netloc url query fragment : Str) : Str :=
  let url :=
    if netloc ≠ [] ∨ (scheme ≠ [] ∧ scheme ∈ uses_netloc ∧ url.take 2 ≠ ['/', '/'])
    then '/' :: '/' :: (netloc ++ (if url ≠ [] ∧ url.take 1 ≠ ['/'] then '/' :: url else url))
    else url
  let url := if scheme ≠ [] then scheme ++ ':' :: url else url
  let url := if query ≠ [] then url ++ '?' :: query else url
  if fragment ≠ [] then url ++ '#' :: fragment else url

/-- The `if params: url = "%s;%s" % (url, params)` step of `urlunparse`. -/
def pathParamsJoin (path params : Str) : Str :=
  if params ≠ [] then path ++ ';' :: params else path

/-- `urllib.parse.urlunparse`; this is also `ParseResult.geturl`. -/
def urlunparse (p : ParseResult) : Str :=
  urlunsplit p.scheme p.netloc (pathParamsJoin p.path p.params) p.query p.fragment

/-- Specification predicate: the first `;` of `B` (a final path segment) is
absent or is not the last character — the condition under which
`_splitparams` followed by re-joining is lossless. -/
def segGood (B : Str) : Prop :=
  pyFind B ';' = none ∨ ∃ j, pyFind B ';' = some j ∧ B.drop (j + 1) ≠ []

/-- Specification predicate: every decomposition of `J` around its last `/`
has a `segGood` final segment. -/
def segOK (J : Str) : Prop :=
  ∀ A B, J = A ++ '/' :: B → '/' ∉ B → segGood B

/-- Keep the first and last elements, drop empty strings in between
(Python `segments[1:-1] = filter(None, segments[1:-1])`). -/
def filterMiddle : List Str → List Str
  | [] => []
  | [a] => [a]
  | a :: b :: rest =>
    a :: (((b :: rest).dropLast).filter (fun x => x ≠ [])) ++ [(b :: rest).getLastD []]

/-- The `'.'`/`'..'` resolution loop of `urljoin`. -/
def resolveSegments (segs : List Str) : List Str :=
  segs.foldl
    (fun acc seg =>
      if seg = str ".." then acc.dropLast
      else if seg = str "." then acc
      else acc ++ [seg])
    []

/-- `urllib.parse.urljoin` (CPython 3.11). -/
def urljoin (base url : Str) : Str :=
  if base = [] then url
  else if url = [] then base
  else
    let b := urlparse base []
    let p := urlparse url b.scheme
    if p.scheme ≠ b.scheme ∨ ¬ p.scheme ∈ uses_relative then url
    else
      let (netloc, early) :=
        if p.scheme ∈ uses_netloc then
          (if p.netloc ≠ [] then (p.netloc, true) else (b.netloc, false))
        else (p.netloc, false)
      if early then urlunparse ⟨p.scheme, p.netloc, p.path, p.params, p.query, p.fragment⟩
      else if p.path = [] ∧ p.params = [] then
        urlunparse ⟨p.scheme, netloc, b.path, b.params,
          (if p.query = [] then b.query else p.query), p.fragment⟩
      else
        let base_parts :=
          let bp := pySplitChar b.path '/'
          if bp.getLastD [] ≠ [] then bp.dropLast else bp
        let segments :=
          if p.path.take 1 = ['/'] then pySplitChar p.path '/'
          else filterMiddle (base_parts ++ pySplitChar p.path '/')
        let resolved := resolveSegments segments
        let resolved := if segments.getLastD [] ∈ [str ".", str ".."] then resolved ++ [[]] else resolved
        let joined := List.intercalate (str "/") resolved
        urlunparse ⟨p.scheme, netloc, (if joined = [] then str "/" else joined),
          p.params, p.query, p.fragment⟩

/-! ## Text normalizer and helpers from src/onefilellm.py -/

/-- `escape_xml` (line 170): `html.escape(str(text), quote=True)`, which is
five sequential single-character `str.replace` passes. -/
def escape_xml (s : Str) : Str :=
  pyReplaceChar
    (pyReplaceChar
      (pyReplaceChar
        (pyReplaceChar (pyReplaceChar s '&' (str "&amp;")) '<' (str "&lt;"))
        '>' (str "&gt;"))
      '"' (str "&quot;"))
    (Char.ofNat 39) (str "&#x27;")

/-- `is_same_domain` (line 559). -/
def is_same_domain (base new : Str) : Bool :=
  (urlparse base []).netloc = (urlparse new []).netloc

/-- Python `s.rstrip('/')`. -/
def pyRstripSlash (s : Str) : Str :=
  (s.reverse.dropWhile (fun c => c = '/')).reverse

/-- `len(p.split('/')) if p else 0`, as used by `is_within_depth`. -/
def segCount (s : Str) : Int :=
  if s = [] then 0 else ((pySplitChar s '/').length : Int)

/-- `is_within_depth` (lines 560-563). -/
def is_within_depth (base current : Str) (max_depth : Int) : Bool :=
  let base_p := pyRstripSlash (urlparse base []).path
  let current_p := pyRstripSlash (urlparse current []).path
  if ¬ base_p.isPrefixOf current_p then false
  else decide (segCount current_p - segCount base_p ≤ max_depth)

/-! ## PDF extraction (lines 173-189, 565-586)

A PyPDF2 page object is modelled by what its `extract_text()` call does:
return a string or raise. -/

inductive PdfPageResult where
  | text (t : Str)
  | exn (msg : Str)
deriving DecidableEq, Repr

/-- The entry a page contributes to `text_list` in
`_extract_text_from_pdf_object`, if any (`i` is the 0-based page index). -/
def pdfPageEntry (i : Nat) (p : PdfPageResult) : Option Str :=
  match p with
  | .text t => if t ≠ [] then some t else none
  | .exn m =>
    some (str "\n<e>Error extracting text from page " ++ str (toString (i + 1)) ++
      str ": " ++ escape_xml m ++ str "</e>\n")

/-- The `text_list` accumulated by `_extract_text_from_pdf_object`. -/
def pdfTextList (pages : List PdfPageResult) : List Str :=
  pages.enum.filterMap (fun ip => pdfPageEntry ip.1 ip.2)

/-- `_extract_text_from_pdf_object` (lines 173-189); its `pdf_reader.pages`
argument is the list of page outcomes. -/
def extract_text_from_pdf_object (pages : List PdfPageResult) : Str :=
  if pages = [] then
    str "<e>PDF file has no pages or could not be read (possibly encrypted).</e>"
  else
    let tl := pdfTextList pages
    if tl = [] then str "<e>No text could be extracted from PDF.</e>"
    else List.intercalate (str " ") tl

/-- Outcome of the HTTP GET + `PdfReader` part of `process_web_pdf`:
either `requests.get`/`raise_for_status` raises a `RequestException`, or some
other exception occurs, or a response arrives with the given Content-Type
header and (if it is a PDF that opens) the given page outcomes. -/
inductive WebPdfOutcome where
  | requestError (msg : Str)
  | otherError (msg : Str)
  | response (contentType : Str) (pages : List PdfPageResult)
deriving DecidableEq, Repr

/-- `process_web_pdf` (lines 565-586) over the outcome of its effects. -/
def process_web_pdf (o : WebPdfOutcome) : Str :=
  match o with
  | .response ct pages =>
    if ¬ containsSub (pyLower ct) (str "application/pdf") then
      str "<error>Skipped non-PDF content reported at PDF URL.</error>"
    else extract_text_from_pdf_object pages
  | .requestError m => str "<error>Failed to download PDF: " ++ escape_xml m ++ str "</error>"
  | .otherError m => str "<error>Failed to process PDF: " ++ escape_xml m ++ str "</error>"

/-! ## Crawl engine (`crawl_and_extract_text`, lines 588-633) -/

/-- Outcome of `requests.get` + BeautifulSoup for one page: an exception, or
a response with the given Content-Type, extracted text (`soup.get_text`
after decomposition) and anchor `href` values in document order. -/
inductive FetchOutcome where
  | exn (msg : Str)
  | response (contentType : Str) (text : Str) (hrefs : List Str)
deriving DecidableEq, Repr

/-- The crawler's external collaborators: the page fetcher and the
download/open phase of `process_web_pdf`, both keyed by the URL. -/
structure CrawlOracle where
  fetch : Str → FetchOutcome
  pdf : Str → WebPdfOutcome

structure CrawlConfig where
  base_url : Str
  max_depth : Int
  include_pdfs : Bool
  ignore_epubs : Bool
deriving DecidableEq, Repr

/-- One Page Record: the normalized URL it was produced for, the depth of
the dequeued frontier entry (bookkeeping used by the specification; the
source only interpolates the text), and the `<page>…</page>` text appended
to `all_text_xml`. -/
structure PageRec where
  url : Str
  depth : Int
  xml : Str
deriving DecidableEq, Repr

/-- The crawl loop state: `visited` (a Python set, modelled as its insertion
sequence), the `to_visit` frontier of `(url, depth)` pairs, and the page
records appended to `all_text_xml` so far.  (`processed_content` holds the
same records keyed by URL and is not modelled separately.) -/
structure CrawlState where
  visited : List Str
  to_visit : List (Str × Int)
  pages : List PageRec
deriving DecidableEq, Repr

def initState (base : Str) : CrawlState := ⟨[], [(base, 0)], []⟩

/-- The `content_to_add` expression of line 607: a PDF extractor result is
inserted raw when nonempty and starting (after strip) with `"<e>"`, and
entity-escaped otherwise. -/
def pageBodyInsert (p : Str) : Str :=
  if p ≠ [] ∧ (str "<e>").isPrefixOf (pyStrip p) then p else escape_xml p

/-- The dequeue-time normalization of lines 596-597: strip the fragment,
re-serialize, and prefix `"http://"` when the parsed scheme is empty. -/
def normalize_url (u : Str) : Str :=
  let parsed := urlparse u []
  let clean := urlunparse { parsed with fragment := [] }
  if parsed.scheme = [] then str "http://" ++ clean else clean

/-- One iteration of the link-discovery loop (lines 620-630): given one
anchor `href` value, append its in-scope `(new_clean, depth+1)` entry to the
frontier unless filtered out. -/
def enqueueOne (cfg : CrawlConfig) (visited : List Str) (clean : Str)
    (depth : Int) (tv : List (Str × Int)) (new_raw : Str) : List (Str × Int) :=
  if new_raw ≠ [] ∧ ¬ (str "mailto:").isPrefixOf new_raw ∧
      ¬ (str "javascript:").isPrefixOf new_raw ∧ ¬ (str "#").isPrefixOf new_raw then
    let new_url := urljoin clean new_raw
    let parsed_new := urlparse new_url []
    let new_url :=
      if parsed_new.scheme = [] then
        urlunparse { parsed_new with scheme := (urlparse clean []).scheme }
      else new_url
    let new_clean := urlunparse { urlparse new_url [] with fragment := [] }
    if ¬ new_clean ∈ visited ∧ is_same_domain cfg.base_url new_clean ∧
        is_within_depth cfg.base_url new_clean cfg.max_depth ∧
        ¬ (cfg.ignore_epubs ∧ (str ".epub").isSuffixOf (pyLower new_clean)) then
      if ¬ (new_clean, depth + 1) ∈ tv then tv ++ [(new_clean, depth + 1)] else tv
    else tv
  else tv

/-- The link-discovery loop (lines 620-630): fold `enqueueOne` over the
page's `href` values. -/
def enqueueLinks (cfg : CrawlConfig) (visited : List Str) (clean : Str)
    (depth : Int) (hrefs : List Str) (tv : List (Str × Int)) : List (Str × Int) :=
  hrefs.foldl (enqueueOne cfg visited clean depth) tv

/-- The body of the crawl loop processing the dequeued entry (`curr`,
`depth`), after the guards have passed; it appends exactly one page record.
`rest` is the remaining frontier. -/
def processPage (cfg : CrawlConfig) (o : CrawlOracle) (st : CrawlState)
    (clean : Str) (depth : Int) (rest : List (Str × Int)) : CrawlState :=
  let visited := st.visited ++ [clean]
  let header := str "\n<page url=\"" ++ escape_xml clean ++ str "\">"
  if (str ".pdf").isSuffixOf (pyLower clean) then
    let body :=
      if cfg.include_pdfs then
        str "\n" ++ pageBodyInsert (process_web_pdf (o.pdf clean)) ++ str "\n"
      else str "\n<skipped>PDF ignored by config</skipped>\n"
    ⟨visited, rest, st.pages ++ [⟨clean, depth, header ++ body ++ str "</page>"⟩]⟩
  else
    match o.fetch clean with
    | .exn m =>
      ⟨visited, rest, st.pages ++
        [⟨clean, depth, header ++ str "\n<error>Failed to process page: " ++
          escape_xml m ++ str "</error>\n" ++ str "</page>"⟩]⟩
    | .response ct text hrefs =>
      if ¬ containsSub (pyLower ct) (str "text/html") then
        ⟨visited, rest, st.pages ++
          [⟨clean, depth, header ++ str "\n<skipped>Non-HTML: " ++ escape_xml ct ++
            str "</skipped>\n" ++ str "</page>"⟩]⟩
      else
        let tv := if depth < cfg.max_depth then enqueueLinks cfg visited clean depth hrefs rest else rest
        ⟨visited, tv, st.pages ++
          [⟨clean, depth, header ++ str "\n" ++ escape_xml text ++ str "\n" ++ str "</page>"⟩]⟩

/-- One iteration of the `while to_visit:` loop (lines 594-632). -/
def crawlStep (cfg : CrawlConfig) (o : CrawlOracle) (st : CrawlState) : CrawlState :=
  match st.to_visit with
  | [] => st
  | (curr, depth) :: rest =>
    let clean := normalize_url curr
    if clean ∈ st.visited ∨ ¬ is_same_domain cfg.base_url clean ∨
        ¬ is_within_depth cfg.base_url clean cfg.max_depth then
      { st with to_visit := rest }
    else if cfg.ignore_epubs ∧ (str ".epub").isSuffixOf (pyLower clean) then
      ⟨st.visited ++ [clean], rest, st.pages⟩
    else processPage cfg o st clean depth rest

/-- Iterate the crawl loop `fuel` times (the loop itself runs until the
frontier is empty; `crawlStep` is the identity once it is). -/
def crawlRun (cfg : CrawlConfig) (o : CrawlOracle) : Nat → CrawlState → CrawlState
  | 0, st => st
  | n + 1, st => crawlRun cfg o n (crawlStep cfg o st)

/-- The `content` value returned by `crawl_and_extract_text`:
`'\n'.join(all_text_xml)` over header, page records and footer. -/
def crawl_and_extract_text (cfg : CrawlConfig) (o : CrawlOracle) (fuel : Nat) : Str :=
  let st := crawlRun cfg o fuel (initState cfg.base_url)
  List.intercalate (str "\n")
    ((str "<source type=\"web_crawl\" base_url=\"" ++ escape_xml cfg.base_url ++ str "\">") ::
      st.pages.map PageRec.xml ++ [str "\n</source>"])

/-! ## Source dispatcher (`dispatch_processing` lines 781-840,
`process_input` lines 842-850)

Handlers are collaborators: each is an oracle mapping the input to either a
returned block string (`Except.ok`) or a raised exception's message
(`Except.error`).  The nested HTTP sub-dispatch (YouTube / arXiv / PDF /
spreadsheet / direct file / crawl) is folded into one `httpHandler` oracle;
the filesystem tests `os.path.isdir`/`os.path.isfile` are oracles too. -/

abbrev PyResult := Except Str Str

structure DispatchEnv where
  isdir : Str → Bool
  isfile : Str → Bool
  githubPull : Str → PyResult
  githubIssue : Str → PyResult
  githubRepo : Str → PyResult
  httpHandler : Str → PyResult
  doiPmid : Str → PyResult
  localFolder : Str → PyResult
  localFile : Str → PyResult

/-- `dispatch_processing` (lines 781-840): classification, plus the final
`raise ValueError(f"Input type not recognized: …")`. -/
def dispatch_processing (env : DispatchEnv) (input : Str) : PyResult :=
  if containsSub input (str "github.com") then
    (if containsSub input (str "/pull/") then env.githubPull input
     else if containsSub input (str "/issues/") then env.githubIssue input
     else env.githubRepo input)
  else if (urlparse input []).scheme = str "http" ∨ (urlparse input []).scheme = str "https" then
    env.httpHandler input
  else if ((str "10.").isPrefixOf input ∧ '/' ∈ input) ∨ pyIsDigitStr input then
    env.doiPmid input
  else if env.isdir input then env.localFolder input
  else if env.isfile input then env.localFile input
  else .error (str "Input type not recognized: " ++ input)

/-- The `error`-typed Source Block emitted by `process_input`'s handler. -/
def errorBlock (input e : Str) : Str :=
  str "<source type=\"error\" path=\"" ++ escape_xml input ++ str "\"><e>Failed: " ++
    escape_xml e ++ str "</e></source>"

/-- `process_input` (lines 842-850): every exception from dispatching is
caught and rendered as an `error` Source Block. -/
def process_input (env : DispatchEnv) (input : Str) : Str :=
  match dispatch_processing env input with
  | .ok r => r
  | .error e => errorBlock input e

/-- The per-input loop of `main` (lines 910-918): process each input in
order and keep each non-empty result. -/
def mainOutputs (env : DispatchEnv) (inputs : List Str) : List Str :=
  inputs.foldl (fun acc p => let r := process_input env p; if r ≠ [] then acc ++ [r] else acc) []

/-- `path_segment_delta` of the specification: the `is_within_depth`
segment-count difference (trailing slashes stripped, counts as computed on
lines 562-563). -/
def path_segment_delta (base u : Str) : Int :=
  segCount (pyRstripSlash (urlparse u []).path) -
    segCount (pyRstripSlash (urlparse base []).path)

/-! ## Concrete example data (used by witnesses and counterexamples) -/

/-- A small site on host `h`: the base page links to `p1` and `x`, and `p1`
links to `x` again. -/
def exampleFetch : Str → FetchOutcome := fun u =>
  if u = str "http://h/d" then
    .response (str "text/html") (str "root") [str "http://h/d/p1", str "http://h/d/x"]
  else if u = str "http://h/d/p1" then
    .response (str "text/html") (str "p1") [str "http://h/d/x"]
  else .response (str "text/html") (str "leaf") []

/-- A web-PDF oracle whose download always fails with a
`requests.RequestException` message `boom`. -/
def examplePdfErr : Str → WebPdfOutcome := fun _ => .requestError (str "boom")

def exampleOracle : CrawlOracle := ⟨exampleFetch, examplePdfErr⟩

def exampleCfg1 : CrawlConfig := ⟨str "http://h/d", 1, true, true⟩

def exampleCfg2 : CrawlConfig := ⟨str "http://h/d", 2, true, true⟩

def examplePdfCfg : CrawlConfig := ⟨str "http://h/doc.pdf", 0, true, true⟩

/-- A dispatcher environment whose filesystem is empty and whose handlers
all succeed with the block `X`. -/
def exampleEnv : DispatchEnv :=
  ⟨fun _ => false, fun _ => false, fun _ => .ok (str "X"), fun _ => .ok (str "X"),
   fun _ => .ok (str "X"), fun _ => .ok (str "X"), fun _ => .ok (str "X"),
   fun _ => .ok (str "X"), fun _ => .ok (str "X")⟩

/-! ## Helper lemmas -/

theorem crawlRun_succ (cfg : CrawlConfig) (o : CrawlOracle) (n : Nat) (st : CrawlState) :
    crawlRun cfg o (n + 1) st = crawlRun cfg o n (crawlStep cfg o st) := rfl

/-- Any property preserved by one loop iteration holds in every reachable
crawl state. -/
theorem crawlRun_inv (cfg : CrawlConfig) (o : CrawlOracle) (P : CrawlState → Prop)
    (hstep : ∀ st, P st → P (crawlStep cfg o st)) :
    ∀ fuel st, P st → P (crawlRun cfg o fuel st) := by
  intro fuel
  induction fuel with
  | zero => intro st h; exact h
  | succ n ih => intro st h; exact ih _ (hstep st h)

/-- `enqueueOne` either leaves the frontier unchanged or appends one entry
at depth `depth + 1` whose URL is unvisited, same-domain, within depth, and
whose `(url, depth+1)` pair is not already queued. -/
theorem enqueueOne_spec (cfg : CrawlConfig) (visited : List Str) (clean : Str)
    (depth : Int) (tv : List (Str × Int)) (new_raw : Str) :
    enqueueOne cfg visited clean depth tv new_raw = tv ∨
      ∃ u, enqueueOne cfg visited clean depth tv new_raw = tv ++ [(u, depth + 1)] ∧
        (u, depth + 1) ∉ tv ∧ u ∉ visited ∧
        is_same_domain cfg.base_url u = true ∧
        is_within_depth cfg.base_url u cfg.max_depth = true := by
  unfold enqueueOne
  dsimp only
  split_ifs <;>
    first
      | exact Or.inl rfl
      | (rename_i hscope hpair
         exact Or.inr ⟨_, rfl, hpair, hscope.1, hscope.2.1, hscope.2.2.1⟩)

theorem enqueueLinks_mem (cfg : CrawlConfig) (visited : List Str) (clean : Str)
    (depth : Int) :
    ∀ (hrefs : List Str) (tv : List (Str × Int)) (e : Str × Int),
      e ∈ enqueueLinks cfg visited clean depth hrefs tv →
      e ∈ tv ∨ (e.2 = depth + 1 ∧ e.1 ∉ visited ∧
        is_same_domain cfg.base_url e.1 = true ∧
        is_within_depth cfg.base_url e.1 cfg.max_depth = true) := by
  intro hrefs
  induction hrefs with
  | nil => intro tv e he; exact Or.inl he
  | cons h t ih =>
    intro tv e he
    have he' : e ∈ enqueueLinks cfg visited clean depth t (enqueueOne cfg visited clean depth tv h) := he
    rcases ih _ e he' with hin | hnew
    · rcases enqueueOne_spec cfg visited clean depth tv h with heq | ⟨u, heq, _, hv, hd, hw⟩
      · rw [heq] at hin; exact Or.inl hin
      · rw [heq] at hin
        rcases List.mem_append.mp hin with hin | hin
        · exact Or.inl hin
        · rcases List.mem_singleton.mp hin with rfl
          exact Or.inr ⟨rfl, hv, hd, hw⟩
    · exact Or.inr hnew

theorem enqueueLinks_nodup (cfg : CrawlConfig) (visited : List Str) (clean : Str)
    (depth : Int) :
    ∀ (hrefs : List Str) (tv : List (Str × Int)), tv.Nodup →
      (enqueueLinks cfg visited clean depth hrefs tv).Nodup := by
  intro hrefs
  induction hrefs with
  | nil => intro tv h; exact h
  | cons h t ih =>
    intro tv hnd
    refine ih _ ?_
    rcases enqueueOne_spec cfg visited clean depth tv h with heq | ⟨u, heq, hnin, _⟩
    · rw [heq]; exact hnd
    · rw [heq]
      refine List.Nodup.append hnd (List.nodup_singleton _) ?_
      intro a ha hb
      rcases List.mem_singleton.mp hb with rfl
      exact hnin ha

theorem enqueueLinks_sub (cfg : CrawlConfig) (visited : List Str) (clean : Str)
    (depth : Int) :
    ∀ (hrefs : List Str) (tv : List (Str × Int)) (e : Str × Int),
      e ∈ tv → e ∈ enqueueLinks cfg visited clean depth hrefs tv := by
  intro hrefs
  induction hrefs with
  | nil => intro tv e he; exact he
  | cons h t ih =>
    intro tv e he
    refine ih _ e ?_
    rcases enqueueOne_spec cfg visited clean depth tv h with heq | ⟨u, heq, _⟩
    · rw [heq]; exact he
    · rw [heq]; exact List.mem_append_left _ he

/-- `processPage` appends `clean` to the visited sequence. -/
theorem processPage_visited (cfg : CrawlConfig) (o : CrawlOracle) (st : CrawlState)
    (clean : Str) (depth : Int) (rest : List (Str × Int)) :
    (processPage cfg o st clean depth rest).visited = st.visited ++ [clean] := by
  rcases h : o.fetch clean with m | ⟨ct, text, hrefs⟩ <;>
    simp only [processPage, h] <;> split_ifs <;> rfl

/-- `processPage` appends exactly one page record, for `clean` at `depth`. -/
theorem processPage_pages (cfg : CrawlConfig) (o : CrawlOracle) (st : CrawlState)
    (clean : Str) (depth : Int) (rest : List (Str × Int)) :
    ∃ x, (processPage cfg o st clean depth rest).pages = st.pages ++ [⟨clean, depth, x⟩] := by
  rcases h : o.fetch clean with m | ⟨ct, text, hrefs⟩ <;>
    simp only [processPage, h] <;> split_ifs <;> exact ⟨_, rfl⟩

/-- Every frontier entry after `processPage` was already in `rest` or is a
newly discovered in-scope link at `depth + 1`. -/
theorem processPage_to_visit (cfg : CrawlConfig) (o : CrawlOracle) (st : CrawlState)
    (clean : Str) (depth : Int) (rest : List (Str × Int)) :
    ∀ e ∈ (processPage cfg o st clean depth rest).to_visit,
      e ∈ rest ∨ (e.2 = depth + 1 ∧ e.1 ∉ st.visited ++ [clean] ∧
        is_same_domain cfg.base_url e.1 = true ∧
        is_within_depth cfg.base_url e.1 cfg.max_depth = true) := by
  intro e he
  rcases h : o.fetch clean with m | ⟨ct, text, hrefs⟩ <;>
    simp only [processPage, h] at he <;> split_ifs at he <;>
    first
      | exact Or.inl he
      | exact enqueueLinks_mem cfg _ clean depth hrefs rest e he

theorem processPage_to_visit_nodup (cfg : CrawlConfig) (o : CrawlOracle) (st : CrawlState)
    (clean : Str) (depth : Int) (rest : List (Str × Int)) (hnd : rest.Nodup) :
    (processPage cfg o st clean depth rest).to_visit.Nodup := by
  rcases h : o.fetch clean with m | ⟨ct, text, hrefs⟩ <;>
    simp only [processPage, h] <;> split_ifs <;>
    first
      | exact hnd
      | exact enqueueLinks_nodup cfg _ clean depth hrefs rest hnd

/-- Exhaustive description of one crawl-loop iteration: the frontier is
empty, or the dequeued entry is discarded by the visited/domain/depth
guard, or it passes the guard and is either skipped as an EPUB (visited
only) or processed by `processPage`. -/
theorem crawlStep_cases (cfg : CrawlConfig) (o : CrawlOracle) (st : CrawlState) :
    crawlStep cfg o st = st ∨
    ∃ curr depth rest, st.to_visit = (curr, depth) :: rest ∧
      (crawlStep cfg o st = { st with to_visit := rest } ∨
       ((normalize_url curr ∉ st.visited ∧
         is_same_domain cfg.base_url (normalize_url curr) = true ∧
         is_within_depth cfg.base_url (normalize_url curr) cfg.max_depth = true) ∧
        (crawlStep cfg o st = ⟨st.visited ++ [normalize_url curr], rest, st.pages⟩ ∨
         crawlStep cfg o st = processPage cfg o st (normalize_url curr) depth rest))) := by
  rcases hm : st.to_visit with _ | ⟨⟨curr, depth⟩, rest⟩
  · left; unfold crawlStep; rw [hm]
  · right
    refine ⟨curr, depth, rest, rfl, ?_⟩
    unfold crawlStep
    rw [hm]
    dsimp only
    split_ifs with hg he
    · left; rfl
    · push_neg at hg
      exact Or.inr ⟨⟨hg.1, hg.2.1, hg.2.2⟩, Or.inl rfl⟩
    · push_neg at hg
      exact Or.inr ⟨⟨hg.1, hg.2.1, hg.2.2⟩, Or.inr rfl⟩

theorem nodup_concat {α : Type} (l : List α) (a : α) (h : l.Nodup) (ha : a ∉ l) :
    (l ++ [a]).Nodup := by
  refine List.Nodup.append h (List.nodup_singleton a) ?_
  intro x hx hx1
  rcases List.mem_singleton.mp hx1 with rfl
  exact ha hx

theorem mem_concat_iff {α : Type} {l : List α} {a b : α} :
    a ∈ l ++ [b] ↔ a ∈ l ∨ a = b := by
  simp [List.mem_append]

/-- Preservation of the no-duplicate-visit invariant (claim C4's core):
the visited sequence stays duplicate-free, the produced page records have
pairwise distinct URLs, and every record's URL is in the visited set. -/
theorem crawlStep_c4inv (cfg : CrawlConfig) (o : CrawlOracle) (st : CrawlState)
    (h : st.visited.Nodup ∧ (st.pages.map PageRec.url).Nodup ∧
      ∀ r ∈ st.pages, r.url ∈ st.visited) :
    (crawlStep cfg o st).visited.Nodup ∧
      ((crawlStep cfg o st).pages.map PageRec.url).Nodup ∧
      ∀ r ∈ (crawlStep cfg o st).pages, r.url ∈ (crawlStep cfg o st).visited := by
  rcases crawlStep_cases cfg o st with heq | ⟨curr, depth, rest, hm, heq | ⟨⟨hnv, hsd, hwd⟩, heq | heq⟩⟩
  · rw [heq]; exact h
  · rw [heq]; exact h
  · rw [heq]
    refine ⟨nodup_concat _ _ h.1 hnv, h.2.1, ?_⟩
    intro r hr
    exact List.mem_append_left _ (h.2.2 r hr)
  · rw [heq]
    obtain ⟨x, hx⟩ := processPage_pages cfg o st (normalize_url curr) depth rest
    rw [processPage_visited, hx]
    have hnp : normalize_url curr ∉ st.pages.map PageRec.url := by
      intro hmem
      rcases List.mem_map.mp hmem with ⟨r, hr, hru⟩
      exact hnv (hru ▸ h.2.2 r hr)
    refine ⟨nodup_concat _ _ h.1 hnv, ?_, ?_⟩
    · rw [List.map_append]
      exact nodup_concat _ _ h.2.1 hnp
    · intro r hr
      rcases mem_concat_iff.mp hr with hr | hr
      · exact List.mem_append_left _ (h.2.2 r hr)
      · rw [hr]
        exact List.mem_append_right _ (List.mem_singleton_self _)

/-- Preservation of frontier pair-distinctness (claim C2, amended). -/
theorem crawlStep_c2inv (cfg : CrawlConfig) (o : CrawlOracle) (st : CrawlState)
    (h : st.to_visit.Nodup) : (crawlStep cfg o st).to_visit.Nodup := by
  rcases crawlStep_cases cfg o st with heq | ⟨curr, depth, rest, hm, heq | ⟨hg, heq | heq⟩⟩
  · rw [heq]; exact h
  · rw [heq]
    exact List.Nodup.of_cons (hm ▸ h)
  · rw [heq]
    exact List.Nodup.of_cons (hm ▸ h)
  · rw [heq]
    exact processPage_to_visit_nodup cfg o st _ depth rest (List.Nodup.of_cons (hm ▸ h))

/-- Preservation of domain containment (claim C5): every visited URL and
every page record URL is same-domain with the base URL. -/
theorem crawlStep_c5inv (cfg : CrawlConfig) (o : CrawlOracle) (st : CrawlState)
    (h : (∀ u ∈ st.visited, is_same_domain cfg.base_url u = true) ∧
      ∀ r ∈ st.pages, is_same_domain cfg.base_url r.url = true) :
    (∀ u ∈ (crawlStep cfg o st).visited, is_same_domain cfg.base_url u = true) ∧
      ∀ r ∈ (crawlStep cfg o st).pages, is_same_domain cfg.base_url r.url = true := by
  rcases crawlStep_cases cfg o st with heq | ⟨curr, depth, rest, hm, heq | ⟨⟨hnv, hsd, hwd⟩, heq | heq⟩⟩
  · rw [heq]; exact h
  · rw [heq]; exact h
  · rw [heq]
    refine ⟨?_, h.2⟩
    intro u hu
    rcases mem_concat_iff.mp hu with hu | hu
    · exact h.1 u hu
    · rw [hu]; exact hsd
  · rw [heq]
    obtain ⟨x, hx⟩ := processPage_pages cfg o st (normalize_url curr) depth rest
    rw [processPage_visited, hx]
    refine ⟨?_, ?_⟩
    · intro u hu
      rcases mem_concat_iff.mp hu with hu | hu
      · exact h.1 u hu
      · rw [hu]; exact hsd
    · intro r hr
      rcases mem_concat_iff.mp hr with hr | hr
      · exact h.2 r hr
      · rw [hr]; exact hsd

/-- Preservation of depth containment (claim C6): every page record URL
passes `is_within_depth` against the base URL and `max_depth`. -/
theorem crawlStep_c6inv (cfg : CrawlConfig) (o : CrawlOracle) (st : CrawlState)
    (h : ∀ r ∈ st.pages, is_within_depth cfg.base_url r.url cfg.max_depth = true) :
    ∀ r ∈ (crawlStep cfg o st).pages,
      is_within_depth cfg.base_url r.url cfg.max_depth = true := by
  rcases crawlStep_cases cfg o st with heq | ⟨curr, depth, rest, hm, heq | ⟨⟨hnv, hsd, hwd⟩, heq | heq⟩⟩
  · rw [heq]; exact h
  · rw [heq]; exact h
  · rw [heq]; exact h
  · rw [heq]
    obtain ⟨x, hx⟩ := processPage_pages cfg o st (normalize_url curr) depth rest
    rw [hx]
    intro r hr
    rcases mem_concat_iff.mp hr with hr | hr
    · exact h r hr
    · rw [hr]; exact hwd

theorem mem_drop_one_concat {α : Type} {l : List α} {a x : α}
    (h : x ∈ (l ++ [a]).drop 1) : x ∈ l.drop 1 ∨ x = a := by
  cases l with
  | nil => simp at h
  | cons b t =>
    have h2 : x ∈ t ++ [a] := h
    rcases mem_concat_iff.mp h2 with h3 | h3
    · exact Or.inl h3
    · exact Or.inr h3

/-- Preservation of the FIFO-depth invariant (claim C7): either every
frontier entry is at depth ≥ 1 and every page record after the first has
depth ≥ 1, or the state is still the initial one. -/
theorem crawlStep_c7inv (cfg : CrawlConfig) (o : CrawlOracle) (st : CrawlState)
    (h : ((∀ e ∈ st.to_visit, 1 ≤ e.2) ∧ ∀ r ∈ st.pages.drop 1, 1 ≤ r.depth) ∨
      st = initState cfg.base_url) :
    ((∀ e ∈ (crawlStep cfg o st).to_visit, 1 ≤ e.2) ∧
        ∀ r ∈ (crawlStep cfg o st).pages.drop 1, 1 ≤ r.depth) ∨
      crawlStep cfg o st = initState cfg.base_url := by
  rcases crawlStep_cases cfg o st with heq | ⟨curr, depth, rest, hm, heq | ⟨hg, heq | heq⟩⟩
  · rcases h with h | h
    · left; rw [heq]; exact h
    · right; rw [heq]; exact h
  · left
    rw [heq]
    rcases h with ⟨htv, hpg⟩ | hinit
    · exact ⟨fun e he => htv e (hm ▸ List.mem_cons_of_mem _ he), hpg⟩
    · rw [hinit] at hm ⊢
      simp only [initState] at hm
      injection hm with h1 h2
      subst h2
      exact ⟨fun e he => absurd he (List.not_mem_nil e), fun r hr => absurd hr (List.not_mem_nil r)⟩
  · left
    rw [heq]
    rcases h with ⟨htv, hpg⟩ | hinit
    · exact ⟨fun e he => htv e (hm ▸ List.mem_cons_of_mem _ he), hpg⟩
    · rw [hinit] at hm ⊢
      simp only [initState] at hm
      injection hm with h1 h2
      subst h2
      exact ⟨fun e he => absurd he (List.not_mem_nil e), fun r hr => absurd hr (List.not_mem_nil r)⟩
  · left
    rw [heq]
    obtain ⟨x, hx⟩ := processPage_pages cfg o st (normalize_url curr) depth rest
    rcases h with ⟨htv, hpg⟩ | hinit
    · have hdep : 1 ≤ depth := htv (curr, depth) (hm ▸ List.mem_cons_self _ _)
      constructor
      · intro e he
        rcases processPage_to_visit cfg o st (normalize_url curr) depth rest e he with he | he
        · exact htv e (hm ▸ List.mem_cons_of_mem _ he)
        · omega
      · rw [hx]
        intro r hr
        rcases mem_drop_one_concat hr with hr | hr
        · exact hpg r hr
        · rw [hr]; exact hdep
    · rw [hinit] at hm
      simp only [initState] at hm
      injection hm with h1 h2
      injection h1 with hc hd
      subst h2
      constructor
      · intro e he
        rcases processPage_to_visit cfg o st (normalize_url curr) depth [] e he with he | he
        · exact absurd he (List.not_mem_nil e)
        · omega
      · rw [hx, hinit]
        intro r hr
        simp only [initState, List.nil_append] at hr
        have hr2 : r ∈ ([] : List PageRec) := hr
        exact absurd hr2 (List.not_mem_nil r)

theorem is_within_depth_le {base u : Str} {d : Int}
    (h : is_within_depth base u d = true) : path_segment_delta base u ≤ d := by
  unfold is_within_depth at h
  dsimp only at h
  split_ifs at h
  exact of_decide_eq_true h

theorem get_mem_drop_one {α : Type} (l : List α) (i : Nat) (hi : i < l.length)
    (h1 : 1 ≤ i) : l.get ⟨i, hi⟩ ∈ l.drop 1 := by
  cases l with
  | nil => exact absurd hi (by simp)
  | cons b t =>
    cases i with
    | zero => omega
    | succ k => exact List.get_mem t k (Nat.lt_of_succ_lt_succ hi)

/-! ## Claims -/

/-- C2, counterexample: crawling base `http://h/d` (max_depth 2) where the
base page links to `p1` and `x` and `p1` links to `x` again, the frontier
after two loop iterations contains the normalized URL `http://h/d/x` twice,
at depth 1 and at depth 2 — refuting that presence in the frontier is
checked by normalized URL alone and that the frontier never holds the same
URL at two depths. -/
theorem c2_counterexample :
    (str "http://h/d/x", (1 : Int)) ∈
        (crawlRun exampleCfg2 exampleOracle 2 (initState exampleCfg2.base_url)).to_visit ∧
      (str "http://h/d/x", (2 : Int)) ∈
        (crawlRun exampleCfg2 exampleOracle 2 (initState exampleCfg2.base_url)).to_visit := by
  decide

/-- C2 (amended): a link is enqueued only if its normalized URL is not in
the Visited set and its exact `(url, depth+1)` pair is not already queued;
the queued-check is by pair, not by URL alone, so in every reachable state
the frontier holds no duplicate `(url, depth)` pair (though the same URL
may appear at two different depths). -/
theorem c2_thm (cfg : CrawlConfig) (o : CrawlOracle) (fuel : Nat) :
    (crawlRun cfg o fuel (initState cfg.base_url)).to_visit.Nodup := by
  refine crawlRun_inv cfg o (fun st => st.to_visit.Nodup) (crawlStep_c2inv cfg o) fuel _ ?_
  simp [initState]

/-- C4: for every crawl invocation (any base URL, configuration and fetch
oracle) and any number of loop iterations, each normalized URL is added to
the Visited sequence at most once, and the output sequence contains at most
one Page Record per normalized URL. -/
theorem c4_thm (cfg : CrawlConfig) (o : CrawlOracle) (fuel : Nat) :
    (crawlRun cfg o fuel (initState cfg.base_url)).visited.Nodup ∧
      ((crawlRun cfg o fuel (initState cfg.base_url)).pages.map PageRec.url).Nodup := by
  have h := crawlRun_inv cfg o
    (fun st => st.visited.Nodup ∧ (st.pages.map PageRec.url).Nodup ∧
      ∀ r ∈ st.pages, r.url ∈ st.visited)
    (crawlStep_c4inv cfg o) fuel (initState cfg.base_url)
    ⟨by simp [initState], by simp [initState], by simp [initState]⟩
  exact ⟨h.1, h.2.1⟩

/-- C5: if a URL's host (netloc) differs from the base URL's host, then in
every reachable crawl state it is not in the Visited set and no Page Record
was produced for it. -/
theorem c5_thm (cfg : CrawlConfig) (o : CrawlOracle) (fuel : Nat) (link : Str)
    (h : is_same_domain cfg.base_url link = false) :
    link ∉ (crawlRun cfg o fuel (initState cfg.base_url)).visited ∧
      ∀ r ∈ (crawlRun cfg o fuel (initState cfg.base_url)).pages, r.url ≠ link := by
  have hinv := crawlRun_inv cfg o
    (fun st => (∀ u ∈ st.visited, is_same_domain cfg.base_url u = true) ∧
      ∀ r ∈ st.pages, is_same_domain cfg.base_url r.url = true)
    (crawlStep_c5inv cfg o) fuel (initState cfg.base_url)
    ⟨by simp [initState], by simp [initState]⟩
  constructor
  · intro hmem
    have h2 := hinv.1 link hmem
    rw [h2] at h
    simp at h
  · intro r hr hEq
    have h2 := hinv.2 r hr
    rw [hEq] at h2
    rw [h2] at h
    simp at h

theorem c5_witness :
    is_same_domain exampleCfg1.base_url (str "http://other/x") = false ∧
      ((str "http://other/x") ∉
          (crawlRun exampleCfg1 exampleOracle 3 (initState exampleCfg1.base_url)).visited ∧
        ∀ r ∈ (crawlRun exampleCfg1 exampleOracle 3 (initState exampleCfg1.base_url)).pages,
          r.url ≠ str "http://other/x") :=
  ⟨by decide, c5_thm exampleCfg1 exampleOracle 3 (str "http://other/x") (by decide)⟩

/-- C6: for every crawl invocation and every Page Record it produces, the
path-segment count of the record's URL (trailing slashes stripped) exceeds
the base URL's by at most `max_depth`. -/
theorem c6_thm (cfg : CrawlConfig) (o : CrawlOracle) (fuel : Nat) (r : PageRec)
    (hr : r ∈ (crawlRun cfg o fuel (initState cfg.base_url)).pages) :
    path_segment_delta cfg.base_url r.url ≤ cfg.max_depth := by
  have hinv := crawlRun_inv cfg o
    (fun st => ∀ p ∈ st.pages, is_within_depth cfg.base_url p.url cfg.max_depth = true)
    (crawlStep_c6inv cfg o) fuel (initState cfg.base_url) (by simp [initState])
  exact is_within_depth_le (hinv r hr)

set_option maxHeartbeats 1000000 in
theorem c6_witness :
    (⟨str "http://h/d", 0, str "\n<page url=\"http://h/d\">\nroot\n</page>"⟩ : PageRec) ∈
        (crawlRun exampleCfg1 exampleOracle 3 (initState exampleCfg1.base_url)).pages ∧
      path_segment_delta exampleCfg1.base_url
        (PageRec.url ⟨str "http://h/d", 0, str "\n<page url=\"http://h/d\">\nroot\n</page>"⟩) ≤
        exampleCfg1.max_depth :=
  ⟨by decide,
    c6_thm exampleCfg1 exampleOracle 3
      ⟨str "http://h/d", 0, str "\n<page url=\"http://h/d\">\nroot\n</page>"⟩ (by decide)⟩

/-- C7: in every crawl, any Page Record produced for a depth-0 frontier
entry appears in the output sequence strictly before any Page Record
produced for a depth-1 frontier entry (records are appended in dequeue
order; the only depth-0 entry is the initial one). -/
theorem c7_thm (cfg : CrawlConfig) (o : CrawlOracle) (fuel : Nat) (i j : Nat)
    (hi : i < (crawlRun cfg o fuel (initState cfg.base_url)).pages.length)
    (hj : j < (crawlRun cfg o fuel (initState cfg.base_url)).pages.length)
    (h0 : ((crawlRun cfg o fuel (initState cfg.base_url)).pages.get ⟨i, hi⟩).depth = 0)
    (h1 : ((crawlRun cfg o fuel (initState cfg.base_url)).pages.get ⟨j, hj⟩).depth = 1) :
    i < j := by
  have hinv := crawlRun_inv cfg o
    (fun st => ((∀ e ∈ st.to_visit, 1 ≤ e.2) ∧ ∀ r ∈ st.pages.drop 1, 1 ≤ r.depth) ∨
      st = initState cfg.base_url)
    (crawlStep_c7inv cfg o) fuel (initState cfg.base_url) (Or.inr rfl)
  rcases hinv with ⟨htv, hdrop⟩ | hinit
  · have hi0 : i = 0 := by
      by_contra hne
      have h1le : 1 ≤ i := Nat.one_le_iff_ne_zero.mpr hne
      have hmem := get_mem_drop_one _ i hi h1le
      have := hdrop _ hmem
      omega
    have hj0 : j ≠ 0 := by
      intro hj0
      subst hi0
      subst hj0
      have : (⟨0, hi⟩ : Fin _) = ⟨0, hj⟩ := rfl
      rw [this] at h0
      omega
    omega
  · rw [hinit] at hi
    simp [initState] at hi

set_option maxHeartbeats 1000000 in
theorem c7_witness :
    ((crawlRun exampleCfg1 exampleOracle 3 (initState exampleCfg1.base_url)).pages.map
        PageRec.depth = [0, 1, 1]) ∧ (0 : Nat) < 1 :=
  ⟨by decide, c7_thm exampleCfg1 exampleOracle 3 0 1 (by decide) (by decide) (by decide) (by decide)⟩

/-- C10: the crawl scope predicate is a raw string-prefix test on
trailing-slash-stripped paths combined with the `'/'`-split segment-count
difference bound (counting the empty path as 0 segments); in particular for
base path `/docs` the sibling `/docs-other` on the same host is in scope at
`max_depth = 0`, though not hierarchically beneath `/docs`. -/
theorem c10_thm :
    (∀ base current max_depth,
        is_within_depth base current max_depth = true ↔
          ((pyRstripSlash (urlparse base []).path).isPrefixOf
              (pyRstripSlash (urlparse current []).path) = true ∧
            path_segment_delta base current ≤ max_depth)) ∧
      is_within_depth (str "http://h/docs") (str "http://h/docs-other") 0 = true := by
  constructor
  · intro base current max_depth
    unfold is_within_depth
    dsimp only
    split_ifs with h
    · constructor
      · intro hd
        exact ⟨h, of_decide_eq_true hd⟩
      · intro hconj
        exact decide_eq_true hconj.2
    · constructor
      · intro hf
        exact absurd hf (by simp)
      · intro hconj
        exact absurd hconj.1 h
  · decide

/-! ### Escaping and stripping helpers (for C1) -/

theorem pyReplaceChar_append (a b : Str) (old : Char) (new : Str) :
    pyReplaceChar (a ++ b) old new = pyReplaceChar a old new ++ pyReplaceChar b old new := by
  induction a with
  | nil => rfl
  | cons x t ih =>
    simp only [pyReplaceChar, List.cons_append, List.flatMap_cons, List.append_assoc] at ih ⊢
    rw [ih]

theorem escape_xml_cons_lt (t : Str) :
    escape_xml ('<' :: t) = '&' :: 'l' :: 't' :: ';' :: escape_xml t := by
  show escape_xml (['<'] ++ t) = ['&', 'l', 't', ';'] ++ escape_xml t
  unfold escape_xml
  rw [pyReplaceChar_append, pyReplaceChar_append, pyReplaceChar_append,
    pyReplaceChar_append, pyReplaceChar_append]
  rfl

theorem pyStrip_of_ends (a b : Char) (mid : Str) (ha : pyIsSpace a = false)
    (hb : pyIsSpace b = false) :
    pyStrip (a :: (mid ++ [b])) = a :: (mid ++ [b]) := by
  unfold pyStrip
  rw [List.dropWhile_cons_of_neg (by simp [ha])]
  have hrev : (a :: (mid ++ [b])).reverse = b :: (mid.reverse ++ [a]) := by
    simp
  rw [hrev, List.dropWhile_cons_of_neg (by simp [hb])]
  rw [← hrev, List.reverse_reverse]

/-- The download-failure marker of `process_web_pdf`, written with its head
and last characters exposed. -/
theorem requestError_shape (m : Str) :
    process_web_pdf (WebPdfOutcome.requestError m) =
      '<' :: ((str "error>Failed to download PDF: " ++ escape_xml m ++ str "</error") ++ ['>']) := by
  show str "<error>Failed to download PDF: " ++ escape_xml m ++ str "</error>" = _
  simp [str]

theorem requestError_strip (m : Str) :
    pyStrip (process_web_pdf (WebPdfOutcome.requestError m)) =
      process_web_pdf (WebPdfOutcome.requestError m) := by
  rw [requestError_shape]
  exact pyStrip_of_ends '<' '>' _ (by decide) (by decide)

theorem requestError_not_e_marker (m : Str) :
    (str "<e>").isPrefixOf (pyStrip (process_web_pdf (WebPdfOutcome.requestError m))) = false := by
  rw [requestError_strip, requestError_shape]
  rfl

/-- C1, counterexample: crawling the PDF URL `http://h/doc.pdf` with
`include_pdfs` on, when the download fails with message `boom`, the
`<error>…</error>` string returned by `process_web_pdf` is entity-escaped a
second time before insertion: the page body holds
`&lt;error&gt;Failed to download PDF: boom&lt;/error&gt;`, not the raw
marker — refuting that the web-PDF failure string is inserted raw. -/
theorem c1_counterexample :
    ((crawlRun examplePdfCfg exampleOracle 1 (initState examplePdfCfg.base_url)).pages.map
        PageRec.xml =
      [str "\n<page url=\"http://h/doc.pdf\">\n&lt;error&gt;Failed to download PDF: boom&lt;/error&gt;\n</page>"]) ∧
      pageBodyInsert (process_web_pdf (examplePdfErr (str "http://h/doc.pdf"))) ≠
        process_web_pdf (examplePdfErr (str "http://h/doc.pdf")) := by
  decide

/-- C1 (amended): the body text inserted into a Page Record for a PDF URL
is the extractor's string exactly when that string is nonempty and starts
(after stripping) with `<e>`, and its entity-escaped form otherwise; the
`<e>`-prefixed extraction-failure markers therefore pass through raw, but
the `<error>`-prefixed download-failure strings of `process_web_pdf` do not
match the `<e>` test and are escaped a second time. -/
theorem c1_thm :
    (∀ p : Str, p ≠ [] → (str "<e>").isPrefixOf (pyStrip p) = true → pageBodyInsert p = p) ∧
    (∀ p : Str, (str "<e>").isPrefixOf (pyStrip p) = false → pageBodyInsert p = escape_xml p) ∧
    (∀ m : Str,
      pageBodyInsert (process_web_pdf (WebPdfOutcome.requestError m)) =
          escape_xml (process_web_pdf (WebPdfOutcome.requestError m)) ∧
        escape_xml (process_web_pdf (WebPdfOutcome.requestError m)) ≠
          process_web_pdf (WebPdfOutcome.requestError m)) ∧
    (∀ (cfg : CrawlConfig) (o : CrawlOracle) (st : CrawlState) (curr : Str) (depth : Int)
        (rest : List (Str × Int)),
      st.to_visit = (curr, depth) :: rest →
      normalize_url curr ∉ st.visited →
      is_same_domain cfg.base_url (normalize_url curr) = true →
      is_within_depth cfg.base_url (normalize_url curr) cfg.max_depth = true →
      ¬ (cfg.ignore_epubs ∧ (str ".epub").isSuffixOf (pyLower (normalize_url curr)) = true) →
      (str ".pdf").isSuffixOf (pyLower (normalize_url curr)) = true →
      cfg.include_pdfs = true →
      (crawlStep cfg o st).pages = st.pages ++
        [⟨normalize_url curr, depth,
          str "\n<page url=\"" ++ escape_xml (normalize_url curr) ++ str "\">" ++
            (str "\n" ++ pageBodyInsert (process_web_pdf (o.pdf (normalize_url curr))) ++ str "\n") ++
            str "</page>"⟩]) := by
  refine ⟨?_, ?_, ?_, ?_⟩
  · intro p hne hpre
    unfold pageBodyInsert
    rw [if_pos ⟨hne, hpre⟩]
  · intro p hpre
    unfold pageBodyInsert
    rw [if_neg]
    intro hcon
    rw [hcon.2] at hpre
    exact absurd hpre (by decide)
  · intro m
    constructor
    · unfold pageBodyInsert
      rw [if_neg]
      intro hcon
      have := hcon.2
      rw [requestError_not_e_marker m] at this
      exact Bool.false_ne_true this
    · rw [requestError_shape, escape_xml_cons_lt]
      intro hcon
      injection hcon with h1 _
      exact absurd h1 (by decide)
  · intro cfg o st curr depth rest hm hnv hsd hwd hep hpdf hinc
    unfold crawlStep
    rw [hm]
    dsimp only
    rw [if_neg (by
      intro hcon
      rcases hcon with hcon | hcon | hcon
      · exact hnv hcon
      · rw [hsd] at hcon; exact hcon rfl
      · rw [hwd] at hcon; exact hcon rfl)]
    rw [if_neg hep]
    unfold processPage
    rw [if_pos hpdf]
    dsimp only
    rw [if_pos hinc]

theorem c1_witness :
    (pageBodyInsert (str "<e>No text could be extracted from PDF.</e>") =
        str "<e>No text could be extracted from PDF.</e>") ∧
      pageBodyInsert (process_web_pdf (WebPdfOutcome.requestError (str "boom"))) =
        escape_xml (process_web_pdf (WebPdfOutcome.requestError (str "boom"))) ∧
      (crawlStep examplePdfCfg exampleOracle (initState examplePdfCfg.base_url)).pages =
        (initState examplePdfCfg.base_url).pages ++
          [⟨normalize_url (str "http://h/doc.pdf"), 0,
            str "\n<page url=\"" ++ escape_xml (normalize_url (str "http://h/doc.pdf")) ++ str "\">" ++
              (str "\n" ++
                pageBodyInsert (process_web_pdf
                  (exampleOracle.pdf (normalize_url (str "http://h/doc.pdf")))) ++ str "\n") ++
              str "</page>"⟩] :=
  ⟨c1_thm.1 (str "<e>No text could be extracted from PDF.</e>") (by decide) (by decide),
   (c1_thm.2.2.1 (str "boom")).1,
   c1_thm.2.2.2 examplePdfCfg exampleOracle (initState examplePdfCfg.base_url)
     (str "http://h/doc.pdf") 0 [] (by decide) (by decide) (by decide) (by decide)
     (by decide) (by decide) (by decide)⟩

/-! ### Dispatcher helpers (for C3) -/

theorem mainOutputs_eq_map (env : DispatchEnv) :
    ∀ (inputs : List Str), (∀ i ∈ inputs, process_input env i ≠ []) →
      mainOutputs env inputs = inputs.map (process_input env) := by
  have haux : ∀ (inputs : List Str) (acc : List Str),
      (∀ i ∈ inputs, process_input env i ≠ []) →
      inputs.foldl (fun acc p => let r := process_input env p;
        if r ≠ [] then acc ++ [r] else acc) acc = acc ++ inputs.map (process_input env) := by
    intro inputs
    induction inputs with
    | nil => intro acc _; simp
    | cons a t ih =>
      intro acc hne
      have ha : process_input env a ≠ [] := hne a (List.mem_cons_self a t)
      simp only [List.foldl_cons, List.map_cons]
      rw [if_pos ha, ih _ (fun i hi => hne i (List.mem_cons_of_mem a hi))]
      simp
  intro inputs hne
  have := haux inputs [] hne
  unfold mainOutputs
  rw [this]
  simp

/-- C3: processing a batch of inputs yields exactly one Source Block per
input (the block for input k depends only on input k), the per-input
boundary never raises (process_input is total), and an input matching no
dispatcher rule — not a GitHub URL, not an http/https URL, not a DOI/PMID
pattern, not an existing directory or file — yields the `error`-typed
Source Block carrying the `Input type not recognized` message. -/
theorem c3_thm (env : DispatchEnv) (inputs : List Str)
    (hne : ∀ i ∈ inputs, process_input env i ≠ []) :
    mainOutputs env inputs = inputs.map (process_input env) ∧
    (∀ i : Str, containsSub i (str "github.com") = false →
      ¬ ((urlparse i []).scheme = str "http" ∨ (urlparse i []).scheme = str "https") →
      ¬ (((str "10.").isPrefixOf i = true ∧ '/' ∈ i) ∨ pyIsDigitStr i = true) →
      env.isdir i = false → env.isfile i = false →
      process_input env i = errorBlock i (str "Input type not recognized: " ++ i)) := by
  constructor
  · exact mainOutputs_eq_map env inputs hne
  · intro i hgh hscheme hdoi hdir hfile
    unfold process_input dispatch_processing
    rw [if_neg (by rw [hgh]; exact Bool.false_ne_true)]
    rw [if_neg hscheme]
    rw [if_neg hdoi]
    rw [if_neg (by rw [hdir]; exact Bool.false_ne_true)]
    rw [if_neg (by rw [hfile]; exact Bool.false_ne_true)]

theorem c3_witness :
    mainOutputs exampleEnv [str "nope"] = [str "nope"].map (process_input exampleEnv) ∧
      process_input exampleEnv (str "nope") =
        errorBlock (str "nope") (str "Input type not recognized: " ++ str "nope") :=
  ⟨(c3_thm exampleEnv [str "nope"] (by decide)).1,
   (c3_thm exampleEnv [str "nope"] (by decide)).2 (str "nope") (by decide) (by decide)
     (by decide) (by decide) (by decide)⟩

/-! ### PDF extraction helpers (for C8) -/

theorem pdfTextList_nil_iff_aux :
    ∀ (pages : List PdfPageResult) (n : Nat),
      ((List.enumFrom n pages).filterMap (fun ip => pdfPageEntry ip.1 ip.2) = [] ↔
        ∀ p ∈ pages, p = PdfPageResult.text []) := by
  intro pages
  induction pages with
  | nil => intro n; simp
  | cons p t ih =>
    intro n
    rcases p with tx | m
    · by_cases htx : tx = []
      · subst htx
        simp only [List.enumFrom, List.filterMap_cons]
        have : pdfPageEntry n (PdfPageResult.text []) = none := by rfl
        rw [this]
        constructor
        · intro h q hq
          rcases List.mem_cons.mp hq with hq | hq
          · rw [hq]
          · exact ((ih (n + 1)).mp h) q hq
        · intro h
          exact (ih (n + 1)).mpr (fun q hq => h q (List.mem_cons_of_mem _ hq))
      · simp only [List.enumFrom, List.filterMap_cons]
        have : pdfPageEntry n (PdfPageResult.text tx) = some tx := by
          show (if tx ≠ [] then some tx else none) = some tx
          rw [if_pos htx]
        rw [this]
        constructor
        · intro h; exact absurd h (by simp)
        · intro h
          have := h (PdfPageResult.text tx) (List.mem_cons_self _ _)
          exact absurd (by injection this) htx
    · simp only [List.enumFrom, List.filterMap_cons]
      have : ∃ s, pdfPageEntry n (PdfPageResult.exn m) = some s := ⟨_, rfl⟩
      obtain ⟨s, hs⟩ := this
      rw [hs]
      constructor
      · intro h; exact absurd h (by simp)
      · intro h
        have := h (PdfPageResult.exn m) (List.mem_cons_self _ _)
        exact absurd this (by simp)

theorem pdfTextList_nil_iff (pages : List PdfPageResult) :
    pdfTextList pages = [] ↔ ∀ p ∈ pages, p = PdfPageResult.text [] :=
  pdfTextList_nil_iff_aux pages 0

/-- C8, counterexample: a one-page PDF whose only page raises on
extraction yields no page text at all, yet the extractor returns the
concatenated per-page error marker — an overall success — and not the
whole-document `<e>No text could be extracted from PDF.</e>` marker,
refuting the only-if direction of the claim. -/
theorem c8_counterexample :
    extract_text_from_pdf_object [PdfPageResult.exn (str "boom")] =
        str "\n<e>Error extracting text from page 1: boom</e>\n" ∧
      extract_text_from_pdf_object [PdfPageResult.exn (str "boom")] ≠
        str "<e>No text could be extracted from PDF.</e>" ∧
      ([PdfPageResult.exn (str "boom")].all (fun p =>
        match p with
        | .text _ => false
        | .exn _ => true)) = true := by
  decide

/-- C8 (amended): over a nonempty page sequence, extraction returns the
whole-document error marker exactly when every page returns empty text
without raising; otherwise it returns the space-joined accumulated list in
which nonempty page texts and per-page error markers appear — so at least
one nonempty page text or at least one raising page makes the overall
extraction a success. -/
theorem c8_thm (pages : List PdfPageResult) (hne : pages ≠ []) :
    (extract_text_from_pdf_object pages =
      if pdfTextList pages = [] then str "<e>No text could be extracted from PDF.</e>"
      else List.intercalate (str " ") (pdfTextList pages)) ∧
    (pdfTextList pages = [] ↔ ∀ p ∈ pages, p = PdfPageResult.text []) := by
  constructor
  · unfold extract_text_from_pdf_object
    rw [if_neg hne]
  · exact pdfTextList_nil_iff pages

theorem c8_witness :
    ([PdfPageResult.text (str "hi"), PdfPageResult.exn (str "bad")] ≠ ([] : List PdfPageResult)) ∧
      ((extract_text_from_pdf_object [PdfPageResult.text (str "hi"), PdfPageResult.exn (str "bad")] =
        if pdfTextList [PdfPageResult.text (str "hi"), PdfPageResult.exn (str "bad")] = [] then
          str "<e>No text could be extracted from PDF.</e>"
        else List.intercalate (str " ")
          (pdfTextList [PdfPageResult.text (str "hi"), PdfPageResult.exn (str "bad")])) ∧
      (pdfTextList [PdfPageResult.text (str "hi"), PdfPageResult.exn (str "bad")] = [] ↔
        ∀ p ∈ [PdfPageResult.text (str "hi"), PdfPageResult.exn (str "bad")],
          p = PdfPageResult.text [])) :=
  ⟨by decide, c8_thm [PdfPageResult.text (str "hi"), PdfPageResult.exn (str "bad")] (by decide)⟩

/-! ### Primitive string lemmas (for C9) -/

theorem pyFind_eq_none_iff (l : Str) (c : Char) : pyFind l c = none ↔ c ∉ l := by
  induction l with
  | nil => simp [pyFind]
  | cons a t ih =>
    unfold pyFind
    by_cases ha : a = c
    · subst ha
      simp
    · rw [if_neg ha]
      constructor
      · intro h hm
        rcases List.mem_cons.mp hm with hm | hm
        · exact ha hm.symm
        · rcases ho : pyFind t c with _ | i
          · exact (ih.mp ho) hm
          · rw [ho] at h; exact absurd h (by simp)
      · intro h
        have hc : c ∉ t := fun hm => h (List.mem_cons_of_mem a hm)
        rw [ih.mpr hc]
        rfl

theorem pyFind_append_cons (a b : Str) (c : Char) (ha : c ∉ a) :
    pyFind (a ++ c :: b) c = some a.length := by
  induction a with
  | nil => simp [pyFind]
  | cons x t ih =>
    have hx : ¬ x = c := fun h => ha (h ▸ List.mem_cons_self x t)
    have ht : c ∉ t := fun h => ha (List.mem_cons_of_mem x h)
    simp only [List.cons_append]
    unfold pyFind
    rw [if_neg hx, ih ht]
    rfl

theorem pyFind_decomp (l : Str) (c : Char) :
    ∀ i, pyFind l c = some i → ∃ a b, l = a ++ c :: b ∧ a.length = i ∧ c ∉ a := by
  induction l with
  | nil => intro i h; exact absurd h (by simp [pyFind])
  | cons x t ih =>
    intro i h
    unfold pyFind at h
    by_cases hx : x = c
    · rw [if_pos hx] at h
      injection h with h
      exact ⟨[], t, by rw [hx]; rfl, h, by simp⟩
    · rw [if_neg hx] at h
      rcases ho : pyFind t c with _ | j
      · rw [ho] at h; exact absurd h (by simp)
      · rw [ho] at h
        have h2 : some (j + 1) = some i := h
        injection h2 with h2
        obtain ⟨a, b, hab, hlen, hnm⟩ := ih j ho
        refine ⟨x :: a, b, by rw [hab]; rfl, ?_, ?_⟩
        · simp only [List.length_cons]
          omega
        · intro hm
          rcases List.mem_cons.mp hm with hm | hm
          · exact hx hm.symm
          · exact hnm hm

theorem pySplitOnce_append_cons (a b : Str) (c : Char) (ha : c ∉ a) :
    pySplitOnce (a ++ c :: b) c = (a, b) := by
  unfold pySplitOnce
  rw [pyFind_append_cons a b c ha]
  show (List.take a.length (a ++ c :: b), List.drop (a.length + 1) (a ++ c :: b)) = (a, b)
  have h1 : List.take a.length (a ++ c :: b) = a := List.take_left a (c :: b)
  have h2 : List.drop (a.length + 1) (a ++ c :: b) = b := by
    rw [show a.length + 1 = (a ++ [c]).length by simp]
    rw [show a ++ c :: b = (a ++ [c]) ++ b by simp]
    exact List.drop_left (a ++ [c]) b
  rw [h1, h2]

theorem pySplitOnce_not_mem (l : Str) (c : Char) (h : c ∉ l) :
    pySplitOnce l c = (l, []) := by
  unfold pySplitOnce
  rw [(pyFind_eq_none_iff l c).mpr h]

theorem takeWhile_append_all (p : Char → Bool) (a b : Str) (ha : ∀ x ∈ a, p x = true) :
    (a ++ b).takeWhile p = a ++ b.takeWhile p := by
  induction a with
  | nil => simp
  | cons x t ih =>
    simp only [List.cons_append, List.takeWhile_cons,
      ha x (List.mem_cons_self x t), if_true]
    rw [ih (fun y hy => ha y (List.mem_cons_of_mem x hy))]

theorem dropWhile_append_all (p : Char → Bool) (a b : Str) (ha : ∀ x ∈ a, p x = true) :
    (a ++ b).dropWhile p = b.dropWhile p := by
  induction a with
  | nil => simp
  | cons x t ih =>
    simp only [List.cons_append, List.dropWhile_cons,
      ha x (List.mem_cons_self x t), if_true]
    exact ih (fun y hy => ha y (List.mem_cons_of_mem x hy))

theorem takeWhile_cons_neg (p : Char → Bool) (d : Char) (b : Str) (hd : p d = false) :
    (d :: b).takeWhile p = [] := by
  simp [List.takeWhile_cons, hd]

theorem dropWhile_cons_neg (p : Char → Bool) (d : Char) (b : Str) (hd : p d = false) :
    (d :: b).dropWhile p = d :: b := by
  simp [List.dropWhile_cons, hd]

theorem map_eq_self_of (l : Str) (f : Char → Char) (h : ∀ c ∈ l, f c = c) :
    l.map f = l := by
  induction l with
  | nil => rfl
  | cons x t ih =>
    simp only [List.map_cons, h x (List.mem_cons_self x t)]
    rw [ih (fun c hc => h c (List.mem_cons_of_mem x hc))]

theorem headD_append (s l : Str) (d : Char) (hs : s ≠ []) :
    (s ++ l).headD d = s.headD d := by
  cases s with
  | nil => exact absurd rfl hs
  | cons x t => rfl

theorem cleanURL_eq_self (l : Str) (h0 : isC0OrSpace (l.headD ' ') = false)
    (h1 : ∀ c ∈ l, c ∉ unsafeURLChars) : cleanURL l = l := by
  unfold cleanURL
  have hd : l.dropWhile isC0OrSpace = l := by
    cases l with
    | nil => rfl
    | cons x t =>
      have h0' : isC0OrSpace x = false := h0
      exact List.dropWhile_cons_of_neg (by simp [h0'])
  rw [hd]
  rw [List.filter_eq_self.mpr]
  intro a ha
  simp [h1 a ha]

theorem dropWhile_shape (p : Char → Bool) (l : Str) :
    l.dropWhile p = [] ∨ ∃ d t, l.dropWhile p = d :: t ∧ p d = false := by
  induction l with
  | nil => exact Or.inl rfl
  | cons x t ih =>
    by_cases hx : p x
    · rw [List.dropWhile_cons_of_pos hx]; exact ih
    · rw [List.dropWhile_cons_of_neg hx]
      exact Or.inr ⟨x, t, rfl, by simp [hx]⟩

theorem mem_of_mem_dropWhile (p : Char → Bool) (l : Str) (a : Char)
    (h : a ∈ l.dropWhile p) : a ∈ l := by
  induction l with
  | nil => exact absurd h (List.not_mem_nil a)
  | cons x t ih =>
    by_cases hx : p x
    · rw [List.dropWhile_cons_of_pos hx] at h
      exact List.mem_cons_of_mem x (ih h)
    · rw [List.dropWhile_cons_of_neg hx] at h
      exact h

/-- `urlsplit` on a string of the shape `scheme ++ ":" ++ body`, when
`scheme` is a nonempty already-lowercased run of scheme characters starting
with a letter: the scheme is recognised exactly and the rest is handled by
`splitAfterScheme`. -/
theorem urlsplit_scheme (s body : Str) (hs : s ≠ [])
    (hchars : ∀ c ∈ s, c ∈ schemeChars) (hlow : ∀ c ∈ s, Char.toLower c = c)
    (halpha : (s.headD ' ').isAlpha = true)
    (hclean : ∀ c ∈ body, c ∉ unsafeURLChars) :
    urlsplit (s ++ ':' :: body) [] =
      ⟨s, (splitAfterScheme body).1, (splitAfterScheme body).2.1,
        (splitAfterScheme body).2.2.1, (splitAfterScheme body).2.2.2⟩ := by
  have hcolon : ':' ∉ s := by
    intro hm
    exact (by decide : ¬ (':' ∈ schemeChars)) (hchars ':' hm)
  have hcleanAll : ∀ c ∈ s ++ ':' :: body, c ∉ unsafeURLChars := by
    intro c hc
    rcases List.mem_append.mp hc with hc | hc
    · exact (by decide : ∀ x ∈ schemeChars, x ∉ unsafeURLChars) c (hchars c hc)
    · rcases List.mem_cons.mp hc with hc | hc
      · rw [hc]; decide
      · exact hclean c hc
  have hheadm : s.headD ' ' ∈ s := by
    cases s with
    | nil => exact absurd rfl hs
    | cons x t => exact List.mem_cons_self x t
  have hheadc0 : isC0OrSpace ((s ++ ':' :: body).headD ' ') = false := by
    rw [headD_append s _ ' ' hs]
    exact (by decide : ∀ x ∈ schemeChars, isC0OrSpace x = false) _ (hchars _ hheadm)
  have hcond : 0 < s.length ∧ ((s ++ ':' :: body).headD ' ').isAlpha = true ∧
      (((s ++ ':' :: body).take s.length).all fun c => decide (c ∈ schemeChars)) = true := by
    refine ⟨List.length_pos.mpr hs, ?_, ?_⟩
    · rw [headD_append s _ ' ' hs]
      exact halpha
    · rw [List.take_left s (':' :: body)]
      exact List.all_eq_true.mpr (fun c hc => by simpa using hchars c hc)
  have hdrop : (s ++ ':' :: body).drop (s.length + 1) = body := by
    rw [show s.length + 1 = (s ++ [':']).length by simp]
    rw [show s ++ ':' :: body = (s ++ [':']) ++ body by simp]
    exact List.drop_left (s ++ [':']) body
  unfold urlsplit
  dsimp only
  rw [cleanURL_eq_self _ hheadc0 hcleanAll, pyFind_append_cons s body ':' hcolon]
  dsimp only
  rw [if_pos hcond]
  rw [List.take_left s (':' :: body), map_eq_self_of s Char.toLower hlow, hdrop]

/-- `splitAfterScheme` on the canonical shape `"//" ++ M ++ ["?" ++ q]`:
the netloc is `M`'s longest delimiter-free prefix, the path the rest of
`M`, the query `q` and the fragment empty. -/
theorem splitAfterScheme_canonical (M q : Str)
    (hM1 : '#' ∉ M) (hM2 : '?' ∉ M) (hq : '#' ∉ q) :
    splitAfterScheme ('/' :: '/' :: (M ++ (if q = [] then [] else '?' :: q))) =
      (M.takeWhile (fun c => ¬ netlocDelim c),
       M.dropWhile (fun c => ¬ netlocDelim c), q, []) := by
  have hTsub : ∀ c ∈ M.dropWhile (fun c => ¬ netlocDelim c), c ∈ M :=
    fun c hc => mem_of_mem_dropWhile _ M c hc
  have hM2' : M.takeWhile (fun c => ¬ netlocDelim c) ++
      M.dropWhile (fun c => ¬ netlocDelim c) = M := List.takeWhile_append_dropWhile _ M
  have htake : (M ++ (if q = [] then [] else '?' :: q)).takeWhile (fun c => ¬ netlocDelim c) =
      M.takeWhile (fun c => ¬ netlocDelim c) := by
    by_cases hq0 : q = []
    · subst hq0
      rw [if_pos rfl, List.append_nil]
    · rw [if_neg hq0]
      conv_lhs => rw [← hM2', List.append_assoc]
      rw [takeWhile_append_all _ _ _ (fun x hx => List.mem_takeWhile_imp hx)]
      rcases dropWhile_shape (fun c => ¬ netlocDelim c) M with hdw | ⟨d, t, hdw, hd⟩
      · rw [hdw, List.nil_append, takeWhile_cons_neg _ '?' q (by decide), List.append_nil]
      · rw [hdw, show (d :: t) ++ '?' :: q = d :: (t ++ '?' :: q) from rfl,
          takeWhile_cons_neg _ d _ hd, List.append_nil]
  have hdrop : (M ++ (if q = [] then [] else '?' :: q)).dropWhile (fun c => ¬ netlocDelim c) =
      M.dropWhile (fun c => ¬ netlocDelim c) ++ (if q = [] then [] else '?' :: q) := by
    by_cases hq0 : q = []
    · subst hq0
      rw [if_pos rfl, List.append_nil, List.append_nil]
    · rw [if_neg hq0]
      conv_lhs => rw [← hM2', List.append_assoc]
      rw [dropWhile_append_all _ _ _ (fun x hx => List.mem_takeWhile_imp hx)]
      rcases dropWhile_shape (fun c => ¬ netlocDelim c) M with hdw | ⟨d, t, hdw, hd⟩
      · rw [hdw, List.nil_append, dropWhile_cons_neg _ '?' q (by decide)]
      · rw [hdw, show (d :: t) ++ '?' :: q = d :: (t ++ '?' :: q) from rfl,
          dropWhile_cons_neg _ d _ hd]
  have hfrag : pySplitOnce (M.dropWhile (fun c => ¬ netlocDelim c) ++
      (if q = [] then [] else '?' :: q)) '#' =
      (M.dropWhile (fun c => ¬ netlocDelim c) ++ (if q = [] then [] else '?' :: q), []) := by
    apply pySplitOnce_not_mem
    intro hm
    rcases List.mem_append.mp hm with hm | hm
    · exact hM1 (hTsub _ hm)
    · by_cases hq0 : q = []
      · rw [if_pos hq0] at hm
        exact List.not_mem_nil _ hm
      · rw [if_neg hq0] at hm
        rcases List.mem_cons.mp hm with hm | hm
        · exact absurd hm (by decide)
        · exact hq hm
  have hquery : pySplitOnce (M.dropWhile (fun c => ¬ netlocDelim c) ++
      (if q = [] then [] else '?' :: q)) '?' =
      (M.dropWhile (fun c => ¬ netlocDelim c), q) := by
    by_cases hq0 : q = []
    · rw [if_pos hq0, List.append_nil, hq0]
      apply pySplitOnce_not_mem
      intro hm
      exact hM2 (hTsub _ hm)
    · rw [if_neg hq0]
      exact pySplitOnce_append_cons _ q '?' (fun hm => hM2 (hTsub _ hm))
  unfold splitAfterScheme
  dsimp only
  rw [if_pos (show List.take 2 ('/' :: '/' :: (M ++ (if q = [] then [] else '?' :: q))) =
    ['/', '/'] from rfl)]
  unfold splitnetloc
  rw [show List.drop 2 ('/' :: '/' :: (M ++ (if q = [] then [] else '?' :: q))) =
    M ++ (if q = [] then [] else '?' :: q) from rfl]
  rw [htake, hdrop]
  dsimp only
  rw [hfrag]
  dsimp only
  rw [hquery]

theorem pyRFind_append_cons (a b : Str) (c : Char) (hb : c ∉ b) :
    pyRFind (a ++ c :: b) c = some a.length := by
  unfold pyRFind
  have hrev : (a ++ c :: b).reverse = b.reverse ++ c :: a.reverse := by simp
  rw [hrev, pyFind_append_cons _ _ c (by simpa using hb)]
  have hlen : (a ++ c :: b).length - 1 - b.reverse.length = a.length := by
    simp only [List.length_append, List.length_cons, List.length_reverse]
    omega
  dsimp only
  rw [hlen]

theorem pySplitOnce_fst_not_mem (l : Str) (c : Char) : c ∉ (pySplitOnce l c).1 := by
  unfold pySplitOnce
  rcases hf : pyFind l c with _ | i
  · exact (pyFind_eq_none_iff l c).mp hf
  · obtain ⟨a, b, hab, hlen, hnm⟩ := pyFind_decomp l c i hf
    subst hab
    dsimp only
    rw [← hlen, List.take_left a (c :: b)]
    exact hnm

theorem pySplitOnce_fst_subset (l : Str) (c : Char) :
    ∀ a ∈ (pySplitOnce l c).1, a ∈ l := by
  unfold pySplitOnce
  rcases hf : pyFind l c with _ | i
  · exact fun a ha => ha
  · exact fun a ha => List.mem_of_mem_take ha

theorem pySplitOnce_snd_subset (l : Str) (c : Char) :
    ∀ a ∈ (pySplitOnce l c).2, a ∈ l := by
  unfold pySplitOnce
  rcases hf : pyFind l c with _ | i
  · exact fun a ha => absurd ha (List.not_mem_nil a)
  · exact fun a ha => List.mem_of_mem_drop ha

theorem append_cons_eq_of_not_mem {x : Char} :
    ∀ (a a' b b' : Str), x ∉ a → x ∉ a' → a ++ x :: b = a' ++ x :: b' →
      a = a' ∧ b = b' := by
  intro a
  induction a with
  | nil =>
    intro a' b b' _ ha' heq
    cases a' with
    | nil =>
      constructor
      · rfl
      · exact (List.cons.injEq _ _ _ _ ▸ heq).2
    | cons y t =>
      exfalso
      have hy : y = x := ((List.cons.injEq _ _ _ _).mp heq).1.symm
      exact ha' (hy ▸ List.mem_cons_self y t)
  | cons z a ih =>
    intro a' b b' ha ha' heq
    cases a' with
    | nil =>
      exfalso
      have hz : z = x := ((List.cons.injEq _ _ _ _).mp heq).1
      exact ha (hz ▸ List.mem_cons_self z a)
    | cons y t =>
      have h1 := (List.cons.injEq _ _ _ _).mp heq
      have hz : z = y := h1.1
      have hrec := ih t b b' (fun hm => ha (List.mem_cons_of_mem z hm))
        (fun hm => ha' (List.mem_cons_of_mem y hm)) h1.2
      exact ⟨by rw [hz, hrec.1], hrec.2⟩

theorem last_slash_decomp (L : Str) (h : '/' ∈ L) :
    ∃ A B, L = A ++ '/' :: B ∧ '/' ∉ B := by
  have hrev : '/' ∈ L.reverse := by simpa using h
  rcases hf : pyFind L.reverse '/' with _ | i
  · exact absurd hrev ((pyFind_eq_none_iff _ _).mp hf)
  · obtain ⟨a, b, hab, hlen, hnm⟩ := pyFind_decomp L.reverse '/' i hf
    refine ⟨b.reverse, a.reverse, ?_, by simpa using hnm⟩
    have : L.reverse.reverse = (a ++ '/' :: b).reverse := by rw [hab]
    simpa using this

/-- `_splitparams` on a string whose final `/`-separated segment is `B`:
it finds the first `;` of `B` (if any). -/
theorem splitparams_slash (A B : Str) (hB : '/' ∉ B) :
    splitparams (A ++ '/' :: B) =
      (match pyFind B ';' with
       | some j => (A ++ '/' :: B.take j, B.drop (j + 1))
       | none => (A ++ '/' :: B, [])) := by
  unfold splitparams
  rw [if_pos (by simp : '/' ∈ A ++ '/' :: B)]
  rw [pyRFind_append_cons A B '/' hB]
  dsimp only
  unfold pyFindFrom
  rw [List.drop_left A ('/' :: B)]
  have h1 : pyFind ('/' :: B) ';' = (pyFind B ';').map (· + 1) := by
    show (if '/' = ';' then some 0 else (pyFind B ';').map (· + 1)) = _
    rw [if_neg (by decide)]
  rw [h1]
  rcases hj : pyFind B ';' with _ | j
  · rfl
  · dsimp only [Option.map]
    have htk : (A ++ '/' :: B).take (j + 1 + A.length) = A ++ '/' :: B.take j := by
      have h2 : j + 1 + A.length = A.length + (j + 1) := by omega
      rw [h2, List.take_append]
      rfl
    have hdr : (A ++ '/' :: B).drop (j + 1 + A.length + 1) = B.drop (j + 1) := by
      have h2 : j + 1 + A.length + 1 = A.length + (j + 2) := by omega
      rw [h2, List.drop_append]
      rfl
    rw [htk, hdr]

theorem splitparams_noslash (T : Str) (hT : '/' ∉ T) :
    splitparams T =
      (match pyFind T ';' with
       | some j => (T.take j, T.drop (j + 1))
       | none => (T, [])) := by
  unfold splitparams
  rw [if_neg hT]

/-- Re-joining path and params after `_splitparams`, when the final
segment's first `;` (if present) is not the string's last character,
reproduces the input. -/
theorem rejoin_splitparams_slash (A B : Str) (hB : '/' ∉ B) (hgood : segGood B) :
    pathParamsJoin (splitparams (A ++ '/' :: B)).1 (splitparams (A ++ '/' :: B)).2 =
      A ++ '/' :: B := by
  unfold pathParamsJoin
  rw [splitparams_slash A B hB]
  rcases hgood with hnone | ⟨j, hj, hne⟩
  · rw [hnone]
    dsimp only
    rw [if_neg (by simp)]
  · rw [hj]
    dsimp only
    rw [if_pos hne]
    obtain ⟨b1, b2, hb, hlen, hnm⟩ := pyFind_decomp B ';' j hj
    rw [hb, ← hlen, List.take_left b1 (';' :: b2)]
    have hd : (b1 ++ ';' :: b2).drop (b1.length + 1) = b2 := by
      rw [show b1.length + 1 = (b1 ++ [';']).length by simp]
      rw [show b1 ++ ';' :: b2 = (b1 ++ [';']) ++ b2 by simp]
      exact List.drop_left (b1 ++ [';']) b2
    rw [hd]
    simp

theorem last_slash_unique (A0 B0 A B : Str) (hB0 : '/' ∉ B0) (hB : '/' ∉ B)
    (h : A0 ++ '/' :: B0 = A ++ '/' :: B) : A0 = A ∧ B0 = B := by
  have hrev : B0.reverse ++ '/' :: A0.reverse = B.reverse ++ '/' :: A.reverse := by
    have h2 := congrArg List.reverse h
    simpa using h2
  obtain ⟨h1, h2⟩ := append_cons_eq_of_not_mem B0.reverse B.reverse A0.reverse A.reverse
    (by simpa using hB0) (by simpa using hB) hrev
  constructor
  · have h3 := congrArg List.reverse h2
    simpa using h3
  · have h3 := congrArg List.reverse h1
    simpa using h3

theorem segOK_of_no_semi (J : Str) (h : ';' ∉ J) : segOK J := by
  intro A B hAB hB
  left
  refine (pyFind_eq_none_iff _ _).mpr ?_
  intro hm
  exact h (hAB ▸ List.mem_append_right A (List.mem_cons_of_mem '/' hm))

theorem segOK_suffix (J T X : Str) (hX : X ++ T = J) (hseg : segOK J) : segOK T := by
  intro A B hAB hB
  refine hseg (X ++ A) B ?_ hB
  rw [← hX, hAB, List.append_assoc]

theorem segOK_cons_slash (J : Str) (hseg : segOK J) (hns : '/' ∉ J → segGood J) :
    segOK ('/' :: J) := by
  intro A B hAB hB
  cases A with
  | nil =>
    have hBJ : J = B := ((List.cons.injEq _ _ _ _).mp hAB).2
    by_cases hsl : '/' ∈ J
    · exact absurd (hBJ ▸ hsl) hB
    · exact hBJ ▸ hns hsl
  | cons y A0 =>
    have h1 := (List.cons.injEq _ _ _ _).mp hAB
    exact hseg A0 B h1.2 hB

theorem splitparams_fst_subset (X : Str) : ∀ a ∈ (splitparams X).1, a ∈ X := by
  unfold splitparams
  split_ifs
  · rcases pyRFind X '/' with _ | r <;> dsimp only
    · exact fun a ha => ha
    · rcases pyFindFrom X ';' r with _ | i <;> dsimp only
      · exact fun a ha => ha
      · exact fun a ha => List.mem_of_mem_take ha
  · rcases pyFind X ';' with _ | i <;> dsimp only
    · exact fun a ha => ha
    · exact fun a ha => List.mem_of_mem_take ha

theorem splitparams_snd_subset (X : Str) : ∀ a ∈ (splitparams X).2, a ∈ X := by
  unfold splitparams
  split_ifs
  · rcases pyRFind X '/' with _ | r <;> dsimp only
    · exact fun a ha => absurd ha (List.not_mem_nil a)
    · rcases pyFindFrom X ';' r with _ | i <;> dsimp only
      · exact fun a ha => absurd ha (List.not_mem_nil a)
      · exact fun a ha => List.mem_of_mem_drop ha
  · rcases pyFind X ';' with _ | i <;> dsimp only
    · exact fun a ha => absurd ha (List.not_mem_nil a)
    · exact fun a ha => List.mem_of_mem_drop ha

theorem mem_pathParamsJoin (path params : Str) (a : Char)
    (h : a ∈ pathParamsJoin path params) : a ∈ path ∨ a = ';' ∨ a ∈ params := by
  unfold pathParamsJoin at h
  split_ifs at h
  · rcases List.mem_append.mp h with h | h
    · exact Or.inl h
    · rcases List.mem_cons.mp h with h | h
      · exact Or.inr (Or.inl h)
      · exact Or.inr (Or.inr h)
  · exact Or.inl h

/-- The path-with-params string produced by `_splitparams` followed by the
`urlunparse` re-join always has `segGood` final segments. -/
theorem segOK_rejoin_splitparams (X : Str) :
    segOK (pathParamsJoin (splitparams X).1 (splitparams X).2) := by
  by_cases hsl : '/' ∈ X
  · obtain ⟨A0, B0, hX, hB0⟩ := last_slash_decomp X hsl
    subst hX
    rw [splitparams_slash A0 B0 hB0]
    rcases hj : pyFind B0 ';' with _ | j
    · dsimp only
      unfold pathParamsJoin
      rw [if_neg (by simp)]
      intro A B hAB hB
      obtain ⟨hA, hBeq⟩ := last_slash_unique A0 B0 A B hB0 hB hAB
      left
      rw [← hBeq]
      exact hj
    · dsimp only
      by_cases hne : B0.drop (j + 1) = []
      · unfold pathParamsJoin
        rw [if_neg (by simp [hne])]
        intro A B hAB hB
        have hBt : '/' ∉ B0.take j := fun hm => hB0 (List.mem_of_mem_take hm)
        obtain ⟨hA, hBeq⟩ := last_slash_unique A0 (B0.take j) A B hBt hB hAB
        obtain ⟨b1, b2, hb, hlen, hnm⟩ := pyFind_decomp B0 ';' j hj
        left
        rw [← hBeq, hb, ← hlen, List.take_left b1 (';' :: b2)]
        exact (pyFind_eq_none_iff _ _).mpr hnm
      · unfold pathParamsJoin
        rw [if_pos (by simp [hne])]
        have hrecomp : A0 ++ '/' :: B0.take j ++ ';' :: B0.drop (j + 1) = A0 ++ '/' :: B0 := by
          obtain ⟨b1, b2, hb, hlen, hnm⟩ := pyFind_decomp B0 ';' j hj
          rw [hb, ← hlen, List.take_left b1 (';' :: b2)]
          have hd : (b1 ++ ';' :: b2).drop (b1.length + 1) = b2 := by
            rw [show b1.length + 1 = (b1 ++ [';']).length by simp]
            rw [show b1 ++ ';' :: b2 = (b1 ++ [';']) ++ b2 by simp]
            exact List.drop_left (b1 ++ [';']) b2
          rw [hd]
          simp
        rw [hrecomp]
        intro A B hAB hB
        obtain ⟨hA, hBeq⟩ := last_slash_unique A0 B0 A B hB0 hB hAB
        right
        exact ⟨j, hBeq ▸ hj, hBeq ▸ hne⟩
  · have hnosl : '/' ∉ pathParamsJoin (splitparams X).1 (splitparams X).2 := by
      intro hm
      rcases mem_pathParamsJoin _ _ '/' hm with hm | hm | hm
      · exact hsl (splitparams_fst_subset X '/' hm)
      · exact absurd hm (by decide)
      · exact hsl (splitparams_snd_subset X '/' hm)
    intro A B hAB hB
    exact absurd (hAB ▸ (by simp : '/' ∈ A ++ '/' :: B)) hnosl

theorem cleanURL_no_unsafe (u : Str) : ∀ c ∈ cleanURL u, c ∉ unsafeURLChars := by
  intro c hc
  unfold cleanURL at hc
  have h2 := List.of_mem_filter hc
  simpa using h2

theorem mem_of_mem_takeWhile (p : Char → Bool) (l : Str) (a : Char)
    (h : a ∈ l.takeWhile p) : a ∈ l := by
  induction l with
  | nil => exact absurd h (List.not_mem_nil a)
  | cons x t ih =>
    by_cases hx : p x
    · rw [List.takeWhile_cons_of_pos hx] at h
      rcases List.mem_cons.mp h with h | h
      · exact h ▸ List.mem_cons_self x t
      · exact List.mem_cons_of_mem x (ih h)
    · rw [List.takeWhile_cons_of_neg hx] at h
      exact absurd h (List.not_mem_nil a)

/-- Well-formedness of the four `splitAfterScheme` components: the netloc
is delimiter-free, path and query contain no `#`, the path no `?`, and all
three are made of characters of the input. -/
theorem splitAfterScheme_wf (x : Str) :
    (∀ c ∈ (splitAfterScheme x).1, netlocDelim c = false ∧ c ∈ x) ∧
    ('#' ∉ (splitAfterScheme x).2.1 ∧ '?' ∉ (splitAfterScheme x).2.1 ∧
      ∀ c ∈ (splitAfterScheme x).2.1, c ∈ x) ∧
    ('#' ∉ (splitAfterScheme x).2.2.1 ∧ ∀ c ∈ (splitAfterScheme x).2.2.1, c ∈ x) := by
  unfold splitAfterScheme
  rcases h1 : (if x.take 2 = ['/', '/'] then splitnetloc (x.drop 2) else ([], x)) with ⟨n, u1⟩
  have hn : ∀ c ∈ n, netlocDelim c = false ∧ c ∈ x := by
    intro c hc
    by_cases h2 : x.take 2 = ['/', '/']
    · rw [if_pos h2] at h1
      unfold splitnetloc at h1
      have hn1 : n = (x.drop 2).takeWhile (fun c => ¬ netlocDelim c) :=
        ((Prod.mk.injEq _ _ _ _).mp h1).1.symm
      rw [hn1] at hc
      refine ⟨by simpa using List.mem_takeWhile_imp hc, ?_⟩
      exact List.mem_of_mem_drop (mem_of_mem_takeWhile _ _ c hc)
    · rw [if_neg h2] at h1
      have hn1 : n = [] := ((Prod.mk.injEq _ _ _ _).mp h1).1.symm
      rw [hn1] at hc
      exact absurd hc (List.not_mem_nil c)
  have hu1 : ∀ c ∈ u1, c ∈ x := by
    intro c hc
    by_cases h2 : x.take 2 = ['/', '/']
    · rw [if_pos h2] at h1
      unfold splitnetloc at h1
      have hu : u1 = (x.drop 2).dropWhile (fun c => ¬ netlocDelim c) :=
        ((Prod.mk.injEq _ _ _ _).mp h1).2.symm
      rw [hu] at hc
      exact List.mem_of_mem_drop (mem_of_mem_dropWhile _ _ c hc)
    · rw [if_neg h2] at h1
      have hu : u1 = x := ((Prod.mk.injEq _ _ _ _).mp h1).2.symm
      exact hu ▸ hc
  dsimp only
  rcases h2 : pySplitOnce u1 '#' with ⟨u2, f⟩
  have hu2sub : ∀ c ∈ u2, c ∈ u1 := by
    intro c hc
    have := pySplitOnce_fst_subset u1 '#'
    rw [h2] at this
    exact this c hc
  have hu2nohash : '#' ∉ u2 := by
    have := pySplitOnce_fst_not_mem u1 '#'
    rw [h2] at this
    exact this
  dsimp only
  rcases h3 : pySplitOnce u2 '?' with ⟨u3, q⟩
  have hu3sub : ∀ c ∈ u3, c ∈ u2 := by
    intro c hc
    have := pySplitOnce_fst_subset u2 '?'
    rw [h3] at this
    exact this c hc
  have hqsub : ∀ c ∈ q, c ∈ u2 := by
    intro c hc
    have := pySplitOnce_snd_subset u2 '?'
    rw [h3] at this
    exact this c hc
  have hu3noq : '?' ∉ u3 := by
    have := pySplitOnce_fst_not_mem u2 '?'
    rw [h3] at this
    exact this
  dsimp only
  refine ⟨hn, ⟨?_, hu3noq, fun c hc => hu1 c (hu2sub c (hu3sub c hc))⟩,
    ?_, fun c hc => hu1 c (hu2sub c (hqsub c hc))⟩
  · intro hm
    exact hu2nohash (hu3sub '#' hm)
  · intro hm
    exact hu2nohash (hqsub '#' hm)

theorem headD_take (l : Str) (i : Nat) (hi : 0 < i) (hl : l ≠ []) :
    (l.take i).headD ' ' = l.headD ' ' := by
  cases l with
  | nil => exact absurd rfl hl
  | cons x t =>
    cases i with
    | zero => omega
    | succ k => rfl

theorem headD_map_toLower (l : Str) (hl : l ≠ []) :
    (l.map Char.toLower).headD ' ' = Char.toLower (l.headD ' ') := by
  cases l with
  | nil => exact absurd rfl hl
  | cons x t => rfl

theorem headD_mem (l : Str) (hl : l ≠ []) : l.headD ' ' ∈ l := by
  cases l with
  | nil => exact absurd rfl hl
  | cons x t => exact List.mem_cons_self x t

/-- Well-formedness of `urlsplit u ""`: the scheme is empty or a nonempty
lowercased run of scheme characters starting with a letter; the netloc is
delimiter-free; path and query have no `#`, the path no `?`; and all
components are free of the removed unsafe characters. -/
theorem urlsplit_wf (u : Str) :
    ((urlsplit u []).scheme = [] ∨
      ((urlsplit u []).scheme ≠ [] ∧ (∀ c ∈ (urlsplit u []).scheme, c ∈ schemeChars) ∧
        (∀ c ∈ (urlsplit u []).scheme, Char.toLower c = c) ∧
        (((urlsplit u []).scheme.headD ' ').isAlpha = true))) ∧
    (∀ c ∈ (urlsplit u []).netloc, netlocDelim c = false) ∧
    ('#' ∉ (urlsplit u []).path ∧ '?' ∉ (urlsplit u []).path) ∧
    ('#' ∉ (urlsplit u []).query) ∧
    (∀ c ∈ (urlsplit u []).path, c ∉ unsafeURLChars) ∧
    (∀ c ∈ (urlsplit u []).query, c ∉ unsafeURLChars) ∧
    (∀ c ∈ (urlsplit u []).netloc, c ∉ unsafeURLChars) := by
  have hclean := cleanURL_no_unsafe u
  have key : ∃ sch u2,
      (sch = [] ∨ (sch ≠ [] ∧ (∀ c ∈ sch, c ∈ schemeChars) ∧
        (∀ c ∈ sch, Char.toLower c = c) ∧ ((sch.headD ' ').isAlpha = true))) ∧
      (∀ c ∈ u2, c ∈ cleanURL u) ∧
      urlsplit u [] = ⟨sch, (splitAfterScheme u2).1, (splitAfterScheme u2).2.1,
        (splitAfterScheme u2).2.2.1, (splitAfterScheme u2).2.2.2⟩ := by
    unfold urlsplit
    dsimp only
    rcases hf : pyFind (cleanURL u) ':' with _ | i
    · refine ⟨cleanScheme [], cleanURL u, Or.inl rfl, fun c hc => hc, ?_⟩
      rcases hs : splitAfterScheme (cleanURL u) with ⟨n, p, q, f⟩
      rfl
    · dsimp only
      split_ifs with hcond
      · obtain ⟨hi, halpha, hall⟩ := hcond
        obtain ⟨a, b, hab, hlen, hnm⟩ := pyFind_decomp (cleanURL u) ':' i hf
        have hcu_ne : cleanURL u ≠ [] := by
          rw [hab]
          cases a <;> simp
        have hta : (cleanURL u).take i = a := by
          rw [hab, ← hlen, List.take_left a (':' :: b)]
        have ha_ne : a ≠ [] := by
          intro h0
          rw [h0] at hlen
          simp at hlen
          omega
        have htk_ne : (cleanURL u).take i ≠ [] := by
          rw [hta]
          exact ha_ne
        have hmemChars : ∀ c ∈ (cleanURL u).take i, c ∈ schemeChars := by
          intro c hc
          have := List.all_eq_true.mp hall c hc
          simpa using this
        refine ⟨((cleanURL u).take i).map Char.toLower, (cleanURL u).drop (i + 1),
          Or.inr ⟨?_, ?_, ?_, ?_⟩, fun c hc => List.mem_of_mem_drop hc, ?_⟩
        · rw [hta]
          cases a with
          | nil => exact absurd rfl ha_ne
          | cons x t => simp
        · intro c hc
          rcases List.mem_map.mp hc with ⟨c0, hc0, hceq⟩
          rw [← hceq]
          exact (by decide : ∀ x ∈ schemeChars, Char.toLower x ∈ schemeChars) c0 (hmemChars c0 hc0)
        · intro c hc
          rcases List.mem_map.mp hc with ⟨c0, hc0, hceq⟩
          rw [← hceq]
          exact (by decide : ∀ x ∈ schemeChars,
            Char.toLower (Char.toLower x) = Char.toLower x) c0 (hmemChars c0 hc0)
        · rw [headD_map_toLower _ htk_ne, headD_take _ i hi hcu_ne]
          have hhd : (cleanURL u).headD ' ' ∈ (cleanURL u).take i := by
            rw [← headD_take _ i hi hcu_ne]
            exact headD_mem _ htk_ne
          exact (by decide : ∀ x ∈ schemeChars, x.isAlpha = true →
            (Char.toLower x).isAlpha = true) _ (hmemChars _ hhd) halpha
        · rcases hs : splitAfterScheme ((cleanURL u).drop (i + 1)) with ⟨n, p, q, f⟩
          rfl
      · refine ⟨cleanScheme [], cleanURL u, Or.inl rfl, fun c hc => hc, ?_⟩
        rcases hs : splitAfterScheme (cleanURL u) with ⟨n, p, q, f⟩
        rfl
  obtain ⟨sch, u2, hsch, hsub, heq⟩ := key
  have hwf := splitAfterScheme_wf u2
  rw [heq]
  exact ⟨hsch, fun c hc => (hwf.1 c hc).1, ⟨hwf.2.1.1, hwf.2.1.2.1⟩, hwf.2.2.1,
    fun c hc => hclean c (hsub c (hwf.2.1.2.2 c hc)),
    fun c hc => hclean c (hsub c (hwf.2.2.2 c hc)),
    fun c hc => hclean c (hsub c ((hwf.1 c hc).2))⟩

/-- If the re-joined path-with-params contains no `/`, its own first `;`
(if any) is not its last character. -/
theorem segGood_rejoin_of_no_slash (X : Str)
    (h : '/' ∉ pathParamsJoin (splitparams X).1 (splitparams X).2) :
    segGood (pathParamsJoin (splitparams X).1 (splitparams X).2) := by
  by_cases hsl : '/' ∈ X
  · exfalso
    obtain ⟨A0, B0, hX, hB0⟩ := last_slash_decomp X hsl
    have hfst : '/' ∈ (splitparams X).1 := by
      rw [hX, splitparams_slash A0 B0 hB0]
      rcases hj : pyFind B0 ';' with _ | j <;> dsimp only <;> simp
    apply h
    unfold pathParamsJoin
    split_ifs
    · exact List.mem_append_left _ hfst
    · exact hfst
  · rw [splitparams_noslash X hsl]
    rcases hj : pyFind X ';' with _ | j
    · dsimp only
      unfold pathParamsJoin
      rw [if_neg (by simp)]
      exact Or.inl hj
    · dsimp only
      obtain ⟨a, b, hab, hlen, hnm⟩ := pyFind_decomp X ';' j hj
      have hta : X.take j = a := by rw [hab, ← hlen, List.take_left]
      by_cases hdrop : X.drop (j + 1) = []
      · unfold pathParamsJoin
        rw [if_neg (not_not.mpr hdrop)]
        left
        refine (pyFind_eq_none_iff _ _).mpr ?_
        intro hm
        exact hnm (hta ▸ hm)
      · unfold pathParamsJoin
        rw [if_pos hdrop]
        right
        refine ⟨j, ?_, ?_⟩
        · rw [hta, ← hlen]
          exact pyFind_append_cons a _ ';' hnm
        · have hlen2 : (X.take j ++ [';']).length = j + 1 := by
            simp [hta, hlen]
          have h2 : X.take j ++ ';' :: X.drop (j + 1) =
              (X.take j ++ [';']) ++ X.drop (j + 1) := by simp
          have h3 := List.drop_left (X.take j ++ [';']) (X.drop (j + 1))
          rw [hlen2] at h3
          rw [h2, h3]
          exact hdrop

/-- `urlparse` passes scheme, netloc, query and fragment through from
`urlsplit` unchanged. -/
theorem urlparse_components (x : Str) :
    (urlparse x []).scheme = (urlsplit x []).scheme ∧
    (urlparse x []).netloc = (urlsplit x []).netloc ∧
    (urlparse x []).query = (urlsplit x []).query ∧
    (urlparse x []).fragment = (urlsplit x []).fragment := by
  unfold urlparse
  dsimp only
  rcases hpp : (if (urlsplit x []).scheme ∈ uses_params ∧ ';' ∈ (urlsplit x []).path
      then splitparams (urlsplit x []).path else ((urlsplit x []).path, [])) with ⟨path, params⟩
  exact ⟨rfl, rfl, rfl, rfl⟩

/-- Well-formedness of the `urlparse` path and params, and the key segment
property of their re-join used by `urlunparse`. -/
theorem urlparse_wf (u : Str) :
    ('#' ∉ (urlparse u []).path ∧ '?' ∉ (urlparse u []).path ∧
      ∀ c ∈ (urlparse u []).path, c ∉ unsafeURLChars) ∧
    ('#' ∉ (urlparse u []).params ∧ '?' ∉ (urlparse u []).params ∧
      ∀ c ∈ (urlparse u []).params, c ∉ unsafeURLChars) ∧
    ((urlparse u []).scheme ∈ uses_params →
      segOK (pathParamsJoin (urlparse u []).path (urlparse u []).params) ∧
      ('/' ∉ pathParamsJoin (urlparse u []).path (urlparse u []).params →
        segGood (pathParamsJoin (urlparse u []).path (urlparse u []).params))) := by
  have hw := urlsplit_wf u
  have hes := (urlparse_components u).1
  unfold urlparse
  dsimp only
  rcases hpp : (if (urlsplit u []).scheme ∈ uses_params ∧ ';' ∈ (urlsplit u []).path
      then splitparams (urlsplit u []).path else ((urlsplit u []).path, [])) with ⟨path, params⟩
  dsimp only
  have hsub : (∀ c ∈ path, c ∈ (urlsplit u []).path) ∧
      (∀ c ∈ params, c ∈ (urlsplit u []).path) := by
    split_ifs at hpp with hcond
    · have h1 : path = (splitparams (urlsplit u []).path).1 :=
        ((Prod.mk.injEq _ _ _ _).mp hpp).1.symm
      have h2 : params = (splitparams (urlsplit u []).path).2 :=
        ((Prod.mk.injEq _ _ _ _).mp hpp).2.symm
      exact ⟨fun c hc => splitparams_fst_subset _ c (h1 ▸ hc),
        fun c hc => splitparams_snd_subset _ c (h2 ▸ hc)⟩
    · have h1 : path = (urlsplit u []).path := ((Prod.mk.injEq _ _ _ _).mp hpp).1.symm
      have h2 : params = [] := ((Prod.mk.injEq _ _ _ _).mp hpp).2.symm
      exact ⟨fun c hc => h1 ▸ hc, fun c hc => absurd (h2 ▸ hc) (List.not_mem_nil c)⟩
  have hJ : (urlsplit u []).scheme ∈ uses_params →
      segOK (pathParamsJoin path params) ∧
      ('/' ∉ pathParamsJoin path params → segGood (pathParamsJoin path params)) := by
    intro hup
    split_ifs at hpp with hcond
    · have h1 : path = (splitparams (urlsplit u []).path).1 :=
        ((Prod.mk.injEq _ _ _ _).mp hpp).1.symm
      have h2 : params = (splitparams (urlsplit u []).path).2 :=
        ((Prod.mk.injEq _ _ _ _).mp hpp).2.symm
      rw [h1, h2]
      exact ⟨segOK_rejoin_splitparams _, segGood_rejoin_of_no_slash _⟩
    · have h1 : path = (urlsplit u []).path := ((Prod.mk.injEq _ _ _ _).mp hpp).1.symm
      have h2 : params = [] := ((Prod.mk.injEq _ _ _ _).mp hpp).2.symm
      have hns : ';' ∉ (urlsplit u []).path := fun hm => hcond ⟨hup, hm⟩
      have hJeq : pathParamsJoin path params = (urlsplit u []).path := by
        rw [h1, h2]
        unfold pathParamsJoin
        rw [if_neg (by simp)]
      rw [hJeq]
      exact ⟨segOK_of_no_semi _ hns, fun _ => Or.inl ((pyFind_eq_none_iff _ _).mpr hns)⟩
  exact ⟨⟨fun hm => hw.2.2.1.1 (hsub.1 '#' hm), fun hm => hw.2.2.1.2 (hsub.1 '?' hm),
      fun c hc => hw.2.2.2.2.1 c (hsub.1 c hc)⟩,
    ⟨fun hm => hw.2.2.1.1 (hsub.2 '#' hm), fun hm => hw.2.2.1.2 (hsub.2 '?' hm),
      fun c hc => hw.2.2.2.2.1 c (hsub.2 c hc)⟩, hJ⟩

theorem segOK_nil : segOK [] := by
  intro A B hAB hB
  exact absurd hAB.symm (by simp)

/-- What `urlsplit` leaves after the netloc is empty or starts with `/`,
provided the input had no `#` or `?`. -/
theorem dropWhile_netloc_shape (L : Str) (h1 : '#' ∉ L) (h2 : '?' ∉ L) :
    L.dropWhile (fun c => ¬ netlocDelim c) = [] ∨
      (L.dropWhile (fun c => ¬ netlocDelim c)).take 1 = ['/'] := by
  rcases dropWhile_shape (fun c => ¬ netlocDelim c) L with h | ⟨d, t, hdt, hd⟩
  · exact Or.inl h
  · right
    have hdM : d ∈ L := mem_of_mem_dropWhile _ L d (hdt ▸ List.mem_cons_self d t)
    have hdelim : netlocDelim d = true := by simpa using hd
    have hd3 : d = '/' ∨ d = '?' ∨ d = '#' := by
      have hmem : d ∈ ['/', '?', '#'] := by simpa [netlocDelim] using hdelim
      simpa using hmem
    rcases hd3 with rfl | rfl | rfl
    · rw [hdt]
      rfl
    · exact absurd hdM h2
    · exact absurd hdM h1

theorem dropWhile_suffix (p : Char → Bool) (l : Str) : ∃ X, X ++ l.dropWhile p = l :=
  ⟨l.takeWhile p, List.takeWhile_append_dropWhile p l⟩

/-- The `urlunparse` re-join is the identity on any `segOK` string that is
empty or starts with `/`. -/
theorem rejoin_T_of (T : Str) (hshape : T = [] ∨ T.take 1 = ['/']) (hseg : segOK T) :
    pathParamsJoin (splitparams T).1 (splitparams T).2 = T := by
  rcases hshape with h0 | h1
  · subst h0
    decide
  · have hmem : '/' ∈ T := by
      cases T with
      | nil => simp at h1
      | cons d t =>
        have hd : d = '/' := by simpa using h1
        rw [hd]
        exact List.mem_cons_self _ _
    obtain ⟨A, B, hT, hB⟩ := last_slash_decomp T hmem
    rw [hT]
    exact rejoin_splitparams_slash A B hB (hseg A B hT hB)

/-- `urlsplit` of the canonical absolute form `scheme://M?q` (query optional):
the netloc is the longest delimiter-free prefix of `M`, the path its rest. -/
theorem parse_canonical (s M q : Str) (hs : s ≠ [])
    (hchars : ∀ c ∈ s, c ∈ schemeChars) (hlow : ∀ c ∈ s, Char.toLower c = c)
    (halpha : (s.headD ' ').isAlpha = true)
    (hM1 : '#' ∉ M) (hM2 : '?' ∉ M) (hq : '#' ∉ q)
    (hMc : ∀ c ∈ M, c ∉ unsafeURLChars) (hqc : ∀ c ∈ q, c ∉ unsafeURLChars) :
    urlsplit (s ++ ':' :: '/' :: '/' :: (M ++ (if q = [] then [] else '?' :: q))) [] =
      ⟨s, M.takeWhile (fun c => ¬ netlocDelim c), M.dropWhile (fun c => ¬ netlocDelim c),
        q, []⟩ := by
  have hbodyclean : ∀ c ∈ '/' :: '/' :: (M ++ (if q = [] then [] else '?' :: q)),
      c ∉ unsafeURLChars := by
    intro c hc
    rcases List.mem_cons.mp hc with rfl | hc
    · decide
    rcases List.mem_cons.mp hc with rfl | hc
    · decide
    rcases List.mem_append.mp hc with h | h
    · exact hMc c h
    · by_cases hq0 : q = []
      · rw [if_pos hq0] at h
        exact absurd h (List.not_mem_nil c)
      · rw [if_neg hq0] at h
        rcases List.mem_cons.mp h with rfl | h
        · decide
        · exact hqc c h
  rw [urlsplit_scheme s _ hs hchars hlow halpha hbodyclean,
    splitAfterScheme_canonical M q hM1 hM2 hq]

theorem splitAfterScheme_fst_slash (rest : Str) :
    (splitAfterScheme ('/' :: '/' :: rest)).1 =
      rest.takeWhile (fun c => ¬ netlocDelim c) := rfl

theorem splitAfterScheme_fst_of_not_slash (body : Str) (h : body.take 2 ≠ ['/', '/']) :
    (splitAfterScheme body).1 = [] := by
  unfold splitAfterScheme
  rw [if_neg h]

theorem netloc_of_scheme (s body : Str) (hs : s ≠ [])
    (hchars : ∀ c ∈ s, c ∈ schemeChars) (hlow : ∀ c ∈ s, Char.toLower c = c)
    (halpha : (s.headD ' ').isAlpha = true)
    (hclean : ∀ c ∈ body, c ∉ unsafeURLChars) :
    (urlparse (s ++ ':' :: body) []).netloc = (splitAfterScheme body).1 := by
  rw [(urlparse_components _).2.1, urlsplit_scheme s body hs hchars hlow halpha hclean]

/-- `urlunsplit` with empty scheme and fragment, in appended normal form. -/
theorem urlunsplit_no_scheme (n J q : Str) :
    urlunsplit [] n J q [] =
      (if n ≠ [] then
        '/' :: '/' :: (n ++ (if J ≠ [] ∧ J.take 1 ≠ ['/'] then '/' :: J else J))
       else J) ++ (if q = [] then [] else '?' :: q) := by
  unfold urlunsplit
  dsimp only
  split_ifs <;> first | rfl | simp_all

/-- `urlunsplit` with nonempty scheme and empty fragment, in appended
normal form. -/
theorem urlunsplit_shape (s n J q : Str) (hs : s ≠ []) :
    urlunsplit s n J q [] =
      (s ++ ':' :: (if n ≠ [] ∨ (s ∈ uses_netloc ∧ J.take 2 ≠ ['/', '/']) then
        '/' :: '/' :: (n ++ (if J ≠ [] ∧ J.take 1 ≠ ['/'] then '/' :: J else J))
       else J)) ++ (if q = [] then [] else '?' :: q) := by
  unfold urlunsplit
  dsimp only
  split_ifs <;> first | rfl | simp_all

theorem take2_head (x : Char) (l : Str) (h : (x :: l).take 2 = ['/', '/']) : x = '/' := by
  simpa using congrArg (fun z => z.headD ' ') h

theorem take_two_body (J q : Str) (hJ2 : J.take 2 ≠ ['/', '/']) :
    (J ++ (if q = [] then [] else '?' :: q)).take 2 ≠ ['/', '/'] := by
  rcases J with _ | ⟨a, _ | ⟨b, t⟩⟩
  · by_cases hq : q = []
    · simp [hq]
    · rw [if_neg hq]
      intro hEq
      simp at hEq
  · by_cases hq : q = []
    · rw [if_pos hq]
      intro hEq
      simp at hEq
    · rw [if_neg hq]
      intro hEq
      simp at hEq
  · intro hEq
    apply hJ2
    simp only [List.cons_append] at hEq
    simpa using hEq

theorem eq_slash_slash_of_take2 (J : Str) (h : J.take 2 = ['/', '/']) :
    ∃ T, J = '/' :: '/' :: T := by
  rcases J with _ | ⟨a, _ | ⟨b, t⟩⟩
  · simp at h
  · simp at h
  · have h1 : a = '/' ∧ b = '/' := by simpa using h
    exact ⟨t, by rw [h1.1, h1.2]⟩

/-- The normalization round trip on a canonical absolute URL `scheme://M?q`
whose `M` has a nonempty delimiter-free prefix (the host): parsing and
re-assembling reproduces it, given the path-with-params re-join is lossless. -/
theorem normalize_canonical (s M q : Str) (hs : s ≠ [])
    (hchars : ∀ c ∈ s, c ∈ schemeChars) (hlow : ∀ c ∈ s, Char.toLower c = c)
    (halpha : (s.headD ' ').isAlpha = true)
    (hM1 : '#' ∉ M) (hM2 : '?' ∉ M) (hq : '#' ∉ q)
    (hMc : ∀ c ∈ M, c ∉ unsafeURLChars) (hqc : ∀ c ∈ q, c ∉ unsafeURLChars)
    (hGT : s ∈ uses_params ∧ ';' ∈ M.dropWhile (fun c => ¬ netlocDelim c) →
      pathParamsJoin (splitparams (M.dropWhile (fun c => ¬ netlocDelim c))).1
        (splitparams (M.dropWhile (fun c => ¬ netlocDelim c))).2 =
        M.dropWhile (fun c => ¬ netlocDelim c))
    (hnet : M.takeWhile (fun c => ¬ netlocDelim c) ≠ []) :
    normalize_url (s ++ ':' :: '/' :: '/' :: (M ++ (if q = [] then [] else '?' :: q))) =
      s ++ ':' :: '/' :: '/' :: (M ++ (if q = [] then [] else '?' :: q)) := by
  have hsplit := parse_canonical s M q hs hchars hlow halpha hM1 hM2 hq hMc hqc
  have hfinal : urlunsplit s (M.takeWhile (fun c => ¬ netlocDelim c))
      (M.dropWhile (fun c => ¬ netlocDelim c)) q [] =
      s ++ ':' :: '/' :: '/' :: (M ++ (if q = [] then [] else '?' :: q)) := by
    have hTshape := dropWhile_netloc_shape M hM1 hM2
    unfold urlunsplit
    dsimp only
    rw [if_pos (Or.inl hnet)]
    have hslashif : (if M.dropWhile (fun c => ¬ netlocDelim c) ≠ [] ∧
        (M.dropWhile (fun c => ¬ netlocDelim c)).take 1 ≠ ['/'] then
        '/' :: M.dropWhile (fun c => ¬ netlocDelim c)
        else M.dropWhile (fun c => ¬ netlocDelim c)) =
        M.dropWhile (fun c => ¬ netlocDelim c) := by
      rcases hTshape with h | h
      · rw [if_neg]
        intro hcc
        exact hcc.1 h
      · rw [if_neg]
        intro hcc
        exact hcc.2 h
    rw [hslashif, List.takeWhile_append_dropWhile, if_pos hs,
      if_neg (by simp : ¬ (([] : Str) ≠ []))]
    by_cases hq0 : q = []
    · rw [if_neg (fun hk => hk hq0), if_pos hq0]
      simp
    · rw [if_pos hq0, if_neg hq0]
      simp
  have hkey : ∃ P Pa,
      urlparse (s ++ ':' :: '/' :: '/' :: (M ++ (if q = [] then [] else '?' :: q))) [] =
        ⟨s, M.takeWhile (fun c => ¬ netlocDelim c), P, Pa, q, []⟩ ∧
      pathParamsJoin P Pa = M.dropWhile (fun c => ¬ netlocDelim c) := by
    unfold urlparse
    dsimp only
    rw [hsplit]
    dsimp only
    split_ifs with hc
    · exact ⟨_, _, rfl, hGT hc⟩
    · refine ⟨_, [], rfl, ?_⟩
      unfold pathParamsJoin
      rw [if_neg (by simp)]
  obtain ⟨P, Pa, hpr, hjoin⟩ := hkey
  unfold normalize_url
  dsimp only
  rw [hpr]
  dsimp only
  rw [if_neg hs]
  show urlunsplit s (M.takeWhile (fun c => ¬ netlocDelim c)) (pathParamsJoin P Pa) q [] = _
  rw [hjoin]
  exact hfinal

/-- C9, counterexample: for `u = "////x"` (no scheme, no host, path starting
`//`) the dequeue normalization gives `http:////x`, but normalizing that
again collapses it to `http://x`, so normalization is not idempotent on all
URL strings. -/
theorem c9_counterexample :
    normalize_url (normalize_url (str "////x")) ≠ normalize_url (str "////x") ∧
      normalize_url (str "////x") = str "http:////x" ∧
      normalize_url (normalize_url (str "////x")) = str "http://x" := by
  decide

/-- C9 (corrected): `normalize_url` (lines 596-597: `urlparse`, drop the
fragment, `urlunparse`, prefix `http://` when schemeless) is idempotent on
every input whose normalized form has a nonempty host (netloc). The
unconditional claim is false — see `c9_counterexample`: `"////x"`
normalizes to `"http:////x"` and again to `"http://x"`. -/
theorem c9_thm (u : Str)
    (h : (urlparse (normalize_url u) []).netloc ≠ []) :
    normalize_url (normalize_url u) = normalize_url u := by
  obtain ⟨hpPath, hpParams, hJfun⟩ := urlparse_wf u
  have hw := urlsplit_wf u
  obtain ⟨hes, hen, heq, hef⟩ := urlparse_components u
  have hnu : normalize_url u =
      if (urlparse u []).scheme = [] then
        str "http://" ++ urlunsplit (urlparse u []).scheme (urlparse u []).netloc
          (pathParamsJoin (urlparse u []).path (urlparse u []).params)
          (urlparse u []).query []
      else
        urlunsplit (urlparse u []).scheme (urlparse u []).netloc
          (pathParamsJoin (urlparse u []).path (urlparse u []).params)
          (urlparse u []).query [] := rfl
  set s0 := (urlparse u []).scheme with hs0def
  set n0 := (urlparse u []).netloc with hn0def
  set q0 := (urlparse u []).query with hq0def
  set J := pathParamsJoin (urlparse u []).path (urlparse u []).params with hJdef
  clear_value s0 n0 q0 J
  have hJ1 : '#' ∉ J := by
    intro hm
    rw [hJdef] at hm
    rcases mem_pathParamsJoin _ _ _ hm with h1 | h1 | h1
    · exact hpPath.1 h1
    · exact absurd h1 (by decide)
    · exact hpParams.1 h1
  have hJ2 : '?' ∉ J := by
    intro hm
    rw [hJdef] at hm
    rcases mem_pathParamsJoin _ _ _ hm with h1 | h1 | h1
    · exact hpPath.2.1 h1
    · exact absurd h1 (by decide)
    · exact hpParams.2.1 h1
  have hJc : ∀ c ∈ J, c ∉ unsafeURLChars := by
    intro c hc
    rw [hJdef] at hc
    rcases mem_pathParamsJoin _ _ _ hc with h1 | h1 | h1
    · exact hpPath.2.2 c h1
    · subst h1
      decide
    · exact hpParams.2.2 c h1
  have hq1 : '#' ∉ q0 := by
    rw [heq]
    exact hw.2.2.2.1
  have hqc : ∀ c ∈ q0, c ∉ unsafeURLChars := by
    rw [heq]
    exact hw.2.2.2.2.2.1
  have hndelim : ∀ c ∈ n0, netlocDelim c = false := by
    rw [hen]
    exact hw.2.1
  have hnc : ∀ c ∈ n0, c ∉ unsafeURLChars := by
    rw [hen]
    exact hw.2.2.2.2.2.2
  by_cases hs : s0 = []
  · rw [if_pos hs, hs] at hnu
    by_cases hn : n0 = []
    · rw [hn, urlunsplit_no_scheme, if_neg (by simp : ¬ (([] : Str) ≠ []))] at hnu
      have hr : normalize_url u = str "http" ++ ':' :: '/' :: '/' ::
          (J ++ (if q0 = [] then [] else '?' :: q0)) := hnu.trans rfl
      have hnet2 : (urlparse (normalize_url u) []).netloc =
          J.takeWhile (fun c => ¬ netlocDelim c) := by
        rw [hr, (urlparse_components _).2.1,
          parse_canonical (str "http") J q0 (by decide) (by decide) (by decide) (by decide)
            hJ1 hJ2 hq1 hJc hqc]
      rw [hnet2] at h
      obtain ⟨hsegJ, hnsJ⟩ := hJfun (by rw [hs]; decide)
      have hGT : str "http" ∈ uses_params ∧
          ';' ∈ J.dropWhile (fun c => ¬ netlocDelim c) →
          pathParamsJoin (splitparams (J.dropWhile (fun c => ¬ netlocDelim c))).1
            (splitparams (J.dropWhile (fun c => ¬ netlocDelim c))).2 =
          J.dropWhile (fun c => ¬ netlocDelim c) := by
        rintro ⟨-, -⟩
        refine rejoin_T_of _ (dropWhile_netloc_shape _ hJ1 hJ2) ?_
        obtain ⟨X, hX⟩ := dropWhile_suffix (fun c => ¬ netlocDelim c) J
        exact segOK_suffix _ _ X hX hsegJ
      rw [hr]
      exact normalize_canonical (str "http") J q0 (by decide) (by decide) (by decide)
        (by decide) hJ1 hJ2 hq1 hJc hqc hGT h
    · exfalso
      rw [urlunsplit_no_scheme, if_pos hn] at hnu
      set Jp := (if J ≠ [] ∧ J.take 1 ≠ ['/'] then '/' :: J else J) with hJpdef
      clear_value Jp
      have hJpc : ∀ c ∈ Jp, c ∉ unsafeURLChars := by
        intro c hc
        rw [hJpdef] at hc
        split_ifs at hc
        · rcases List.mem_cons.mp hc with rfl | hc
          · decide
          · exact hJc c hc
        · exact hJc c hc
      have hr : normalize_url u = str "http" ++ ':' :: '/' :: '/' :: '/' :: '/' ::
          ((n0 ++ Jp) ++ (if q0 = [] then [] else '?' :: q0)) := hnu.trans rfl
      rw [hr] at h
      apply h
      have hbody : ∀ c ∈ ('/' :: '/' :: '/' :: '/' ::
          ((n0 ++ Jp) ++ (if q0 = [] then [] else '?' :: q0))), c ∉ unsafeURLChars := by
        intro c hc
        rcases List.mem_cons.mp hc with rfl | hc
        · decide
        rcases List.mem_cons.mp hc with rfl | hc
        · decide
        rcases List.mem_cons.mp hc with rfl | hc
        · decide
        rcases List.mem_cons.mp hc with rfl | hc
        · decide
        rcases List.mem_append.mp hc with hc | hc
        · rcases List.mem_append.mp hc with hc | hc
          · exact hnc c hc
          · exact hJpc c hc
        · by_cases hq0 : q0 = []
          · rw [if_pos hq0] at hc
            exact absurd hc (List.not_mem_nil c)
          · rw [if_neg hq0] at hc
            rcases List.mem_cons.mp hc with rfl | hc
            · decide
            · exact hqc c hc
      rw [netloc_of_scheme (str "http") _ (by decide) (by decide) (by decide) (by decide)
        hbody, splitAfterScheme_fst_slash]
      exact takeWhile_cons_neg _ '/' _ (by decide)
  · rw [if_neg hs] at hnu
    have hs2 : (urlsplit u []).scheme ≠ [] := by
      rw [← hes]
      exact hs
    rcases hw.1 with hbad | ⟨-, hschars0, hslow0, hsalpha0⟩
    · exact absurd hbad hs2
    have hschars : ∀ c ∈ s0, c ∈ schemeChars := by
      rw [hes]
      exact hschars0
    have hslow : ∀ c ∈ s0, Char.toLower c = c := by
      rw [hes]
      exact hslow0
    have hsalpha : ((s0).headD ' ').isAlpha = true := by
      rw [hes]
      exact hsalpha0
    rw [urlunsplit_shape s0 n0 J q0 hs] at hnu
    by_cases hcond : n0 ≠ [] ∨ (s0 ∈ uses_netloc ∧ J.take 2 ≠ ['/', '/'])
    · rw [if_pos hcond] at hnu
      set Jp := (if J ≠ [] ∧ J.take 1 ≠ ['/'] then '/' :: J else J) with hJpdef
      clear_value Jp
      have hIc : ∀ c ∈ Jp, c ∈ '/' :: J := by
        intro c hc
        rw [hJpdef] at hc
        split_ifs at hc
        · exact hc
        · exact List.mem_cons_of_mem _ hc
      have hM1 : '#' ∉ n0 ++ Jp := by
        intro hm
        rcases List.mem_append.mp hm with h1 | h1
        · exact absurd (hndelim '#' h1) (by decide)
        · rcases List.mem_cons.mp (hIc '#' h1) with h2 | h2
          · exact absurd h2 (by decide)
          · exact hJ1 h2
      have hM2 : '?' ∉ n0 ++ Jp := by
        intro hm
        rcases List.mem_append.mp hm with h1 | h1
        · exact absurd (hndelim '?' h1) (by decide)
        · rcases List.mem_cons.mp (hIc '?' h1) with h2 | h2
          · exact absurd h2 (by decide)
          · exact hJ2 h2
      have hMc : ∀ c ∈ n0 ++ Jp, c ∉ unsafeURLChars := by
        intro c hc
        rcases List.mem_append.mp hc with h1 | h1
        · exact hnc c h1
        · rcases List.mem_cons.mp (hIc c h1) with h2 | h2
          · subst h2
            decide
          · exact hJc c h2
      have hr : normalize_url u = s0 ++ ':' :: '/' :: '/' ::
          ((n0 ++ Jp) ++ (if q0 = [] then [] else '?' :: q0)) := by
        rw [hnu]
        simp only [List.append_assoc, List.cons_append]
      have hnet2 : (urlparse (normalize_url u) []).netloc =
          (n0 ++ Jp).takeWhile (fun c => ¬ netlocDelim c) := by
        rw [hr, (urlparse_components _).2.1,
          parse_canonical s0 (n0 ++ Jp) q0 hs hschars hslow hsalpha hM1 hM2 hq1 hMc hqc]
      rw [hnet2] at h
      have hGT : s0 ∈ uses_params ∧
          ';' ∈ (n0 ++ Jp).dropWhile (fun c => ¬ netlocDelim c) →
          pathParamsJoin (splitparams ((n0 ++ Jp).dropWhile (fun c => ¬ netlocDelim c))).1
            (splitparams ((n0 ++ Jp).dropWhile (fun c => ¬ netlocDelim c))).2 =
          (n0 ++ Jp).dropWhile (fun c => ¬ netlocDelim c) := by
        rintro ⟨hup, -⟩
        obtain ⟨hsegJ, hnsJ⟩ := hJfun hup
        have hTeq : (n0 ++ Jp).dropWhile (fun c => ¬ netlocDelim c) =
            Jp.dropWhile (fun c => ¬ netlocDelim c) :=
          dropWhile_append_all _ n0 Jp (fun x hx => by simp [hndelim x hx])
        rw [hTeq]
        by_cases hpre : J ≠ [] ∧ J.take 1 ≠ ['/']
        · have hJpeq : Jp = '/' :: J := by
            rw [hJpdef, if_pos hpre]
          rw [hJpeq, dropWhile_cons_neg _ '/' J (by decide)]
          exact rejoin_T_of _ (Or.inr rfl) (segOK_cons_slash J hsegJ hnsJ)
        · have hJpeq : Jp = J := by
            rw [hJpdef, if_neg hpre]
          rw [hJpeq]
          by_cases hJn : J = []
          · rw [hJn]
            exact rejoin_T_of _ (Or.inl rfl) segOK_nil
          · have hJhead : J.take 1 = ['/'] := by
              by_contra hk
              exact hpre ⟨hJn, hk⟩
            obtain ⟨d, t, hdt⟩ := List.exists_cons_of_ne_nil hJn
            have hd : d = '/' := by
              rw [hdt] at hJhead
              simpa using hJhead
            rw [hdt, hd, dropWhile_cons_neg _ '/' t (by decide)]
            refine rejoin_T_of _ (Or.inr rfl) ?_
            rw [← hd, ← hdt]
            exact hsegJ
      rw [hr]
      exact normalize_canonical s0 (n0 ++ Jp) q0 hs hschars hslow hsalpha hM1 hM2
        hq1 hMc hqc hGT h
    · rw [if_neg hcond] at hnu
      by_cases hJ2t : J.take 2 = ['/', '/']
      · obtain ⟨T2, hJdec⟩ := eq_slash_slash_of_take2 J hJ2t
        have hT2sub : ∀ c ∈ T2, c ∈ J := by
          intro c hc
          rw [hJdec]
          exact List.mem_cons_of_mem _ (List.mem_cons_of_mem _ hc)
        have hM1 : '#' ∉ T2 := fun hm => hJ1 (hT2sub '#' hm)
        have hM2 : '?' ∉ T2 := fun hm => hJ2 (hT2sub '?' hm)
        have hMc : ∀ c ∈ T2, c ∉ unsafeURLChars := fun c hc => hJc c (hT2sub c hc)
        have hr : normalize_url u = s0 ++ ':' :: '/' :: '/' ::
            (T2 ++ (if q0 = [] then [] else '?' :: q0)) := by
          rw [hnu, hJdec]
          simp only [List.append_assoc, List.cons_append]
        have hnet2 : (urlparse (normalize_url u) []).netloc =
            T2.takeWhile (fun c => ¬ netlocDelim c) := by
          rw [hr, (urlparse_components _).2.1,
            parse_canonical s0 T2 q0 hs hschars hslow hsalpha hM1 hM2 hq1 hMc hqc]
        rw [hnet2] at h
        have hGT : s0 ∈ uses_params ∧
            ';' ∈ T2.dropWhile (fun c => ¬ netlocDelim c) →
            pathParamsJoin (splitparams (T2.dropWhile (fun c => ¬ netlocDelim c))).1
              (splitparams (T2.dropWhile (fun c => ¬ netlocDelim c))).2 =
            T2.dropWhile (fun c => ¬ netlocDelim c) := by
          rintro ⟨hup, -⟩
          obtain ⟨hsegJ, -⟩ := hJfun hup
          refine rejoin_T_of _ (dropWhile_netloc_shape _ hM1 hM2) ?_
          obtain ⟨X, hX⟩ := dropWhile_suffix (fun c => ¬ netlocDelim c) T2
          refine segOK_suffix _ _ ('/' :: '/' :: X) ?_ hsegJ
          rw [hJdec]
          simp only [List.cons_append]
          rw [hX]
        rw [hr]
        exact normalize_canonical s0 T2 q0 hs hschars hslow hsalpha hM1 hM2
          hq1 hMc hqc hGT h
      · exfalso
        have hr : normalize_url u = s0 ++ ':' ::
            (J ++ (if q0 = [] then [] else '?' :: q0)) := by
          rw [hnu]
          simp only [List.append_assoc, List.cons_append]
        rw [hr] at h
        apply h
        have hbody : ∀ c ∈ J ++ (if q0 = [] then [] else '?' :: q0),
            c ∉ unsafeURLChars := by
          intro c hc
          rcases List.mem_append.mp hc with h1 | h1
          · exact hJc c h1
          · by_cases hq0 : q0 = []
            · rw [if_pos hq0] at h1
              exact absurd h1 (List.not_mem_nil c)
            · rw [if_neg hq0] at h1
              rcases List.mem_cons.mp h1 with rfl | h1
              · decide
              · exact hqc c h1
        rw [netloc_of_scheme s0 _ hs hschars hslow hsalpha hbody,
          splitAfterScheme_fst_of_not_slash _ (take_two_body J q0 hJ2t)]

theorem c9_witness :
    (urlparse (normalize_url (str "http://example.com/docs")) []).netloc ≠ [] ∧
      normalize_url (normalize_url (str "http://example.com/docs")) =
        normalize_url (str "http://example.com/docs") :=
  ⟨by decide, c9_thm (str "http://example.com/docs") (by decide)⟩

end Onefilellm
